import Mathlib

/-!
Verification of the B+ tree implementation in `b_plus_tree.py`.

The embedding mirrors the Python source: a `Node` holds an `order`, a list of
`keys`, a single `values` list (whose elements are either value buckets, for
leaves, or child nodes, for internal nodes — Python stores both in the one
`self.values` attribute), and an `is_leaf` flag.  Fallible operations (index
errors, attribute errors, unbound loop variables) are modelled with `Option`:
`none` is a Python runtime error.  In particular `Node.add` reproduces the
source's loop faithfully, including the fact that the branch appending a new
maximum key has no `break`, so the iteration continues onto the freshly
appended key and appends the value a second time.
-/

namespace BPT

mutual

inductive Node (K V : Type) : Type where
| mk (order : Nat) (keys : List K) (values : List (NVal K V)) (lf : Bool)

inductive NVal (K V : Type) : Type where
| bucket (b : List V)
| child (c : Node K V)

end

variable {K V : Type} [LinearOrder K]

def Node.order : Node K V → Nat
| Node.mk o _ _ _ => o

def Node.keys : Node K V → List K
| Node.mk _ ks _ _ => ks

def Node.values : Node K V → List (NVal K V)
| Node.mk _ _ vs _ => vs

def Node.is_leaf : Node K V → Bool
| Node.mk _ _ _ lf => lf

/-- `len(self.keys) == self.order` -/
def Node.is_full (n : Node K V) : Bool := n.keys.length == n.order

/-- First index of the list satisfying `p`: the `for i, item in enumerate(...)`
scan pattern used by `_find`, `_merge` and `retrieve`. -/
def scanIdx {α : Type} (p : α → Bool) : List α → Option Nat
| [] => none
| x :: xs => if p x then some 0 else (scanIdx p xs).map (· + 1)

/-- The loop of `Node.add`, iterating index `i` over the keys (the `rest`
argument is the suffix of `ks` from position `i`).  The third branch mirrors
the source exactly: it appends `key`/`[value]` and, having no `break`, the
iteration continues onto the appended element, where `key == item` holds and
the value is appended to that bucket once more. -/
def addGo (key : K) (value : V) (ks : List K) (vs : List (NVal K V)) :
    List K → Nat → Option (List K × List (NVal K V))
| [], _ => some (ks, vs)
| item :: rest, i =>
  if key = item then
    match vs[i]? with
    | some (NVal.bucket b) => some (ks, vs.set i (NVal.bucket (b ++ [value])))
    | some (NVal.child _) => none
    | none => none
  else if key < item then
    some (ks.take i ++ key :: ks.drop i, vs.take i ++ NVal.bucket [value] :: vs.drop i)
  else if i + 1 = ks.length then
    match (vs ++ [NVal.bucket [value]])[i + 1]? with
    | some (NVal.bucket b) =>
      some (ks ++ [key], (vs ++ [NVal.bucket [value]]).set (i + 1) (NVal.bucket (b ++ [value])))
    | some (NVal.child _) => none
    | none => none
  else addGo key value ks vs rest (i + 1)

/-- `Node.add` on the key/values lists. -/
def addKV (ks : List K) (vs : List (NVal K V)) (key : K) (value : V) :
    Option (List K × List (NVal K V)) :=
  if ks.isEmpty then some (ks ++ [key], vs ++ [NVal.bucket [value]])
  else addGo key value ks vs ks 0

/-- `Node.add(key, value)`. -/
def Node.add (n : Node K V) (key : K) (value : V) : Option (Node K V) :=
  match n with
  | Node.mk o ks vs lf => (addKV ks vs key value).map fun p => Node.mk o p.1 p.2 lf

/-- `Node.split()`: split at `mid = order // 2` into two fresh leaf children
and turn this node, in place, into an internal node with the single separator
`right.keys[0]`. -/
def Node.split : Node K V → Option (Node K V)
| Node.mk o ks vs _ =>
  let mid := o / 2
  match (ks.drop mid)[0]? with
  | none => none
  | some sep =>
    some (Node.mk o [sep]
      [NVal.child (Node.mk o (ks.take mid) (vs.take mid) true),
       NVal.child (Node.mk o (ks.drop mid) (vs.drop mid) true)] false)

/-- `BPlusTree._find(node, key)`: index of the first key greater than `key`
and the value stored there; if there is none, the last loop index plus one
(`NameError` — `none` — on empty keys, `IndexError` — `none` — when the
values list is too short). -/
def _find (n : Node K V) (key : K) : Option (NVal K V × Nat) :=
  match scanIdx (fun item => decide (key < item)) n.keys with
  | some i =>
    match n.values[i]? with
    | some v => some (v, i)
    | none => none
  | none =>
    if n.keys.isEmpty then none
    else
      match n.values[n.keys.length]? with
      | some v => some (v, n.keys.length)
      | none => none

/-- `BPlusTree._merge(parent, child, index)`: pop the parent's value slot at
`index`, then fold `pivot = child.keys[0]` and the two children in
`child.values` into the parent's keys/values at the pivot's scan position. -/
def _merge (parent : Node K V) (child : Node K V) (index : Nat) : Option (Node K V) :=
  match parent with
  | Node.mk o pks pvs lf =>
    if index < pvs.length then
      let pvs2 := pvs.eraseIdx index
      match child.keys[0]? with
      | none => none
      | some pivot =>
        match scanIdx (fun item => decide (pivot < item)) pks with
        | some i =>
          some (Node.mk o (pks.take i ++ pivot :: pks.drop i)
            (pvs2.take i ++ child.values ++ pvs2.drop i) lf)
        | none =>
          if pks.isEmpty then some (Node.mk o pks pvs2 lf)
          else some (Node.mk o (pks ++ [pivot]) (pvs2 ++ child.values) lf)
    else none

theorem mem_values_of_find {o : Nat} {ks : List K} {vs : List (NVal K V)} {lf : Bool}
    {key : K} {v : NVal K V} {i : Nat}
    (h : _find (Node.mk o ks vs lf) key = some (v, i)) : v ∈ vs := by
  unfold _find at h
  simp only [Node.keys, Node.values] at h
  split at h
  · split at h
    · next w hg => cases h; exact List.getElem?_mem hg
    · exact absurd h (by simp)
  · split at h
    · exact absurd h (by simp)
    · split at h
      · next w hg => cases h; exact List.getElem?_mem hg
      · exact absurd h (by simp)

theorem sizeOf_lt_of_mem_values {o : Nat} {ks : List K} {vs : List (NVal K V)} {lf : Bool}
    {c : Node K V} (h : NVal.child c ∈ vs) :
    sizeOf c < sizeOf (Node.mk o ks vs lf) := by
  have h1 : sizeOf (NVal.child c) < sizeOf vs := List.sizeOf_lt_of_mem h
  simp only [NVal.child.sizeOf_spec, Node.mk.sizeOf_spec] at *
  omega

/-- `BPlusTree.insert(key, value)` on a node: descend to a leaf remembering
the last internal node (the recursion stops at an internal node whose chosen
child is a leaf — that node is the `parent`), `add` at the leaf, `split` if
full, and `merge` into the parent only when a parent exists and is not full. -/
def insertNode (n : Node K V) (key : K) (value : V) : Option (Node K V) :=
  match n with
  | Node.mk o ks vs true =>
    match Node.add (Node.mk o ks vs true) key value with
    | none => none
    | some c =>
      if c.is_full then c.split else some c
  | Node.mk o ks vs false =>
    match h : _find (Node.mk o ks vs false) key with
    | none => none
    | some (NVal.bucket _, _) => none
    | some (NVal.child c, index) =>
      if c.is_leaf then
        match Node.add c key value with
        | none => none
        | some c2 =>
          if c2.is_full then
            match c2.split with
            | none => none
            | some c3 =>
              if (Node.mk o ks vs false).is_full then
                some (Node.mk o ks (vs.set index (NVal.child c3)) false)
              else
                _merge (Node.mk o ks vs false) c3 index
          else some (Node.mk o ks (vs.set index (NVal.child c2)) false)
      else
        match insertNode c key value with
        | none => none
        | some c2 => some (Node.mk o ks (vs.set index (NVal.child c2)) false)
termination_by sizeOf n
decreasing_by
  exact sizeOf_lt_of_mem_values (mem_values_of_find h)

/-- `BPlusTree.retrieve(key)` on a node: descend through internal nodes via
`_find`, then scan the reached leaf's keys for equality; `some none` is the
"key not found" result `None`, outer `none` is a runtime error. -/
def retrieveNode (n : Node K V) (key : K) : Option (Option (NVal K V)) :=
  match n with
  | Node.mk _ ks vs true =>
    match scanIdx (fun item => decide (key = item)) ks with
    | some i =>
      match vs[i]? with
      | some v => some (some v)
      | none => none
    | none => some none
  | Node.mk o ks vs false =>
    match h : _find (Node.mk o ks vs false) key with
    | none => none
    | some (NVal.bucket _, _) => none
    | some (NVal.child c, _) => retrieveNode c key
termination_by sizeOf n
decreasing_by
  exact sizeOf_lt_of_mem_values (mem_values_of_find h)

structure BPlusTree (K V : Type) where
  root : Node K V

/-- `BPlusTree.__init__(order=4)`: the root is a fresh empty leaf; the order
is not validated. -/
def BPlusTree.new (order : Nat) : BPlusTree K V :=
  ⟨Node.mk order [] [] true⟩

def BPlusTree.insert (t : BPlusTree K V) (key : K) (value : V) : Option (BPlusTree K V) :=
  (insertNode t.root key value).map (⟨·⟩)

def BPlusTree.retrieve (t : BPlusTree K V) (key : K) : Option (Option (NVal K V)) :=
  retrieveNode t.root key

/-- Build a tree by constructing it with `order` and then performing the
given sequence of `insert(key, value)` calls. -/
def buildTree (order : Nat) (ops : List (K × V)) : Option (BPlusTree K V) :=
  ops.foldlM (fun t p => t.insert p.1 p.2) (BPlusTree.new order)

/-- An optional lower bound is satisfied (inclusively) by `k`. -/
def loLE (lo : Option K) (k : K) : Prop := ∀ l, lo = some l → l ≤ k

/-- An optional lower bound is satisfied strictly by `k`. -/
def loLT (lo : Option K) (k : K) : Prop := ∀ l, lo = some l → l < k

/-- An optional upper bound is satisfied (strictly) by `k`. -/
def hiGT (hi : Option K) (k : K) : Prop := ∀ h, hi = some h → k < h

/-- Lower bound of the key range of child slot `i` of an internal node with
separator keys `ks` and subtree bound `lo`: slot `i` receives the keys that
are `≥ ks[i-1]` (inclusive, because `_find` sends a key equal to a separator
to the right of that separator). -/
def slotLo (lo : Option K) (ks : List K) : Nat → Option K
| 0 => lo
| i + 1 => ks[i]?

/-- Upper bound (strict) of the key range of child slot `i`: keys of slot `i`
are `< ks[i]`, the last slot inheriting the subtree bound `hi`. -/
def slotHi (hi : Option K) (ks : List K) (i : Nat) : Option K :=
  match ks[i]? with
  | some k => some k
  | none => hi

mutual

/-- Well-formedness of a node within the key range `[lo, hi)`, for a tree of
the given `order`.  Leaves: one bucket per key, strictly sorted keys within
range, and strictly fewer than `order` keys (a full leaf is split before
`insert` returns).  Internal nodes: between 1 and `order` separator keys and
a well-formed child slot structure. -/
inductive WF (order : Nat) : Option K → Option K → Node K V → Prop where
| leaf : ∀ (lo hi : Option K) (ks : List K) (vs : List (NVal K V)),
    vs.length = ks.length →
    (∀ v ∈ vs, ∃ b, v = NVal.bucket b) →
    List.Sorted (· < ·) ks →
    (∀ k ∈ ks, loLE lo k ∧ hiGT hi k) →
    ks.length < order →
    WF order lo hi (Node.mk order ks vs true)
| internal : ∀ (lo hi : Option K) (ks : List K) (vs : List (NVal K V)),
    1 ≤ ks.length →
    ks.length ≤ order →
    Slots order lo hi ks vs →
    WF order lo hi (Node.mk order ks vs false)

/-- The slot structure of an internal node: values `c₀ … cₙ` interleaved with
separators `k₁ … kₙ`, each child well-formed in its slot range, separators
strictly increasing through the threaded lower bound. -/
inductive Slots (order : Nat) : Option K → Option K → List K → List (NVal K V) → Prop where
| last : ∀ (lo hi : Option K) (c : Node K V),
    WF order lo hi c → Slots order lo hi [] [NVal.child c]
| cons : ∀ (lo hi : Option K) (k : K) (ks : List K) (c : Node K V) (vs : List (NVal K V)),
    loLT lo k →
    WF order lo (some k) c →
    Slots order (some k) hi ks vs →
    Slots order lo hi (k :: ks) (NVal.child c :: vs)

end

/-- `Reach n m`: node `m` is reachable from `n` by descending through value
slots. -/
inductive Reach : Node K V → Node K V → Prop where
| refl : ∀ n, Reach n n
| step : ∀ (n c m : Node K V), NVal.child c ∈ n.values → Reach c m → Reach n m

mutual

/-- All keys stored anywhere in a node: its own keys plus, recursively, those
of its child nodes. -/
def allKeys : Node K V → List K
| Node.mk _ ks vs _ => ks ++ allKeysVals vs

def allKeysVals : List (NVal K V) → List K
| [] => []
| NVal.bucket _ :: rest => allKeysVals rest
| NVal.child c :: rest => allKeys c ++ allKeysVals rest

end

/-! ### Characterization of the scanning loop -/

theorem scanIdx_lt_length {α : Type} {p : α → Bool} :
    ∀ {l : List α} {i : Nat}, scanIdx p l = some i → i < l.length := by
  intro l
  induction l with
  | nil => intro i h; simp [scanIdx] at h
  | cons x xs ih =>
    intro i h
    simp only [scanIdx] at h
    by_cases hp : p x
    · rw [if_pos hp] at h
      cases h
      simp
    · rw [if_neg hp] at h
      cases hs : scanIdx p xs with
      | none => rw [hs] at h; simp at h
      | some j =>
        rw [hs] at h
        simp only [Option.map_some'] at h
        cases h
        have := ih hs
        simp only [List.length_cons]
        omega

theorem scanIdx_getElem {α : Type} {p : α → Bool} :
    ∀ {l : List α} {i : Nat}, scanIdx p l = some i → ∃ a, l[i]? = some a ∧ p a = true := by
  intro l
  induction l with
  | nil => intro i h; simp [scanIdx] at h
  | cons x xs ih =>
    intro i h
    simp only [scanIdx] at h
    by_cases hp : p x
    · rw [if_pos hp] at h
      cases h
      exact ⟨x, by simp, hp⟩
    · rw [if_neg hp] at h
      cases hs : scanIdx p xs with
      | none => rw [hs] at h; simp at h
      | some j =>
        rw [hs] at h
        simp only [Option.map_some'] at h
        cases h
        obtain ⟨a, ha, hpa⟩ := ih hs
        exact ⟨a, by simpa using ha, hpa⟩

theorem scanIdx_take {α : Type} {p : α → Bool} :
    ∀ {l : List α} {i : Nat}, scanIdx p l = some i →
      ∀ x ∈ l.take i, p x = false := by
  intro l
  induction l with
  | nil => intro i h; simp [scanIdx] at h
  | cons x xs ih =>
    intro i h
    simp only [scanIdx] at h
    by_cases hp : p x
    · rw [if_pos hp] at h
      cases h
      simp
    · rw [if_neg hp] at h
      cases hs : scanIdx p xs with
      | none => rw [hs] at h; simp at h
      | some j =>
        rw [hs] at h
        simp only [Option.map_some'] at h
        cases h
        intro y hy
        simp only [List.take_succ_cons, List.mem_cons] at hy
        rcases hy with rfl | hy
        · simpa using hp
        · exact ih hs y hy

theorem scanIdx_none {α : Type} {p : α → Bool} :
    ∀ {l : List α}, scanIdx p l = none → ∀ x ∈ l, p x = false := by
  intro l
  induction l with
  | nil => intro _ x hx; simp at hx
  | cons x xs ih =>
    intro h y hy
    simp only [scanIdx] at h
    by_cases hp : p x
    · rw [if_pos hp] at h; simp at h
    · rw [if_neg hp] at h
      rcases List.mem_cons.mp hy with rfl | hy
      · simpa using hp
      · cases hs : scanIdx p xs with
        | none => exact ih hs y hy
        | some j => rw [hs] at h; simp at h

theorem scanIdx_intro_some {α : Type} {p : α → Bool} :
    ∀ {l : List α} {i : Nat} {a : α}, l[i]? = some a → p a = true →
      (∀ x ∈ l.take i, p x = false) → scanIdx p l = some i := by
  intro l
  induction l with
  | nil => intro i a h; simp at h
  | cons x xs ih =>
    intro i a hget hpa htake
    cases i with
    | zero =>
      simp only [List.getElem?_cons_zero, Option.some_inj] at hget
      subst hget
      simp [scanIdx, hpa]
    | succ j =>
      have hx : p x = false := htake x (by simp)
      simp only [List.getElem?_cons_succ] at hget
      have : scanIdx p xs = some j := by
        refine ih hget hpa ?_
        intro y hy
        exact htake y (by simp [hy])
      simp [scanIdx, hx, this]

theorem scanIdx_intro_none {α : Type} {p : α → Bool} :
    ∀ {l : List α}, (∀ x ∈ l, p x = false) → scanIdx p l = none := by
  intro l
  induction l with
  | nil => intro _; simp [scanIdx]
  | cons x xs ih =>
    intro h
    have hx : p x = false := h x (by simp)
    simp [scanIdx, hx, ih (fun y hy => h y (by simp [hy]))]

/-! ### Small list utilities -/

theorem eraseIdx_take {α : Type} :
    ∀ (l : List α) (i : Nat), (l.eraseIdx i).take i = l.take i := by
  intro l
  induction l with
  | nil => intro i; simp [List.eraseIdx]
  | cons x xs ih =>
    intro i
    cases i with
    | zero => simp
    | succ j => simp [List.eraseIdx, ih j]

theorem eraseIdx_drop {α : Type} :
    ∀ (l : List α) (i : Nat), (l.eraseIdx i).drop i = l.drop (i + 1) := by
  intro l
  induction l with
  | nil => intro i; simp [List.eraseIdx]
  | cons x xs ih =>
    intro i
    cases i with
    | zero => simp [List.eraseIdx]
    | succ j => simp [List.eraseIdx, ih j]

theorem sorted_take_lt {l : List K} (hs : List.Sorted (· < ·) l) {i : Nat} {b : K}
    (hb : l[i]? = some b) : ∀ x ∈ l.take i, x < b := by
  intro x hx
  obtain ⟨hi, rfl⟩ := List.getElem?_eq_some_iff.mp hb
  obtain ⟨j, hj, rfl⟩ := List.mem_take_iff_getElem.mp hx
  have hji : j < i ∧ j < l.length := lt_min_iff.mp hj
  exact List.pairwise_iff_getElem.mp hs j i hji.2 hi hji.1

theorem sorted_drop_le {l : List K} (hs : List.Sorted (· < ·) l) {i : Nat} {b : K}
    (hb : l[i]? = some b) : ∀ x ∈ l.drop i, b ≤ x := by
  intro x hx
  obtain ⟨hi, rfl⟩ := List.getElem?_eq_some_iff.mp hb
  obtain ⟨j, hj, hx⟩ := List.getElem_of_mem hx
  rw [List.getElem_drop] at hx
  subst hx
  have hj' : i + j < l.length := by
    rw [List.length_drop] at hj
    omega
  rcases Nat.eq_zero_or_pos j with rfl | hpos
  · exact le_of_eq (by congr 1)
  · exact le_of_lt (List.pairwise_iff_getElem.mp hs i (i + j) hi hj' (by omega))

/-- Inserting `k` at position `i` preserves strict sortedness when everything
before position `i` is below `k` and everything from position `i` on is above. -/
theorem sorted_insertAt {l : List K} (hs : List.Sorted (· < ·) l) {i : Nat} {k : K}
    (h1 : ∀ x ∈ l.take i, x < k) (h2 : ∀ x ∈ l.drop i, k < x) :
    List.Sorted (· < ·) (l.take i ++ k :: l.drop i) := by
  rw [List.Sorted, List.pairwise_append]
  refine ⟨hs.sublist (List.take_sublist i l), ?_, ?_⟩
  · rw [List.pairwise_cons]
    exact ⟨h2, hs.sublist (List.drop_sublist i l)⟩
  · intro a ha b hb
    rcases List.mem_cons.mp hb with rfl | hb
    · exact h1 a ha
    · calc a < k := h1 a ha
        _ < b := h2 b hb

theorem mem_insertAt {l : List α} {i : Nat} {k x : α}
    (h : x ∈ l.take i ++ k :: l.drop i) : x ∈ l ∨ x = k := by
  rcases List.mem_append.mp h with h | h
  · exact Or.inl (List.mem_of_mem_take h)
  · rcases List.mem_cons.mp h with rfl | h
    · exact Or.inr rfl
    · exact Or.inl (List.mem_of_mem_drop h)

theorem eraseIdx_eq {α : Type} :
    ∀ (l : List α) (i : Nat), l.eraseIdx i = l.take i ++ l.drop (i + 1) := by
  intro l
  induction l with
  | nil => intro i; simp [List.eraseIdx]
  | cons x xs ih =>
    intro i
    cases i with
    | zero => simp [List.eraseIdx]
    | succ j => simp [List.eraseIdx, ih j]

@[simp] theorem order_mk {o : Nat} {ks : List K} {vs : List (NVal K V)} {lf : Bool} :
    (Node.mk o ks vs lf).order = o := rfl

@[simp] theorem keys_mk {o : Nat} {ks : List K} {vs : List (NVal K V)} {lf : Bool} :
    (Node.mk o ks vs lf).keys = ks := rfl

@[simp] theorem values_mk {o : Nat} {ks : List K} {vs : List (NVal K V)} {lf : Bool} :
    (Node.mk o ks vs lf).values = vs := rfl

@[simp] theorem is_leaf_mk {o : Nat} {ks : List K} {vs : List (NVal K V)} {lf : Bool} :
    (Node.mk o ks vs lf).is_leaf = lf := rfl

@[simp] theorem slotLo_zero {lo : Option K} {ks : List K} : slotLo lo ks 0 = lo := rfl

theorem slotLo_succ {lo : Option K} {k : K} {ks : List K} {j : Nat} :
    slotLo lo (k :: ks) (j + 1) = slotLo (some k) ks j := by
  cases j with
  | zero => simp [slotLo]
  | succ j' => simp [slotLo]

theorem slotHi_succ {hi : Option K} {k : K} {ks : List K} {j : Nat} :
    slotHi hi (k :: ks) (j + 1) = slotHi hi ks j := by
  simp [slotHi]

theorem slotHi_nil {hi : Option K} {i : Nat} : slotHi hi ([] : List K) i = hi := by
  simp [slotHi]

theorem slotHi_cons_zero {hi : Option K} {k : K} {ks : List K} :
    slotHi hi (k :: ks) 0 = some k := by
  simp [slotHi]

/-! ### Structure of well-formed slot lists -/

theorem slots_length {order : Nat} {hi : Option K} :
    ∀ {ks : List K} {lo : Option K} {vs : List (NVal K V)},
      Slots order lo hi ks vs → vs.length = ks.length + 1 := by
  intro ks
  induction ks with
  | nil => intro lo vs h; cases h; simp
  | cons k ks ih =>
    intro lo vs h
    cases h with
    | cons _ _ _ _ _ _ _ _ htail => simpa using ih htail

theorem slots_lo_lt {order : Nat} {hi : Option K} :
    ∀ {ks : List K} {lo : Option K} {vs : List (NVal K V)},
      Slots order lo hi ks vs → ∀ k ∈ ks, loLT lo k := by
  intro ks
  induction ks with
  | nil => intro lo vs _ k hk; simp at hk
  | cons k0 ks ih =>
    intro lo vs h k hk
    cases h with
    | cons _ _ _ _ _ _ hlt hwc htail =>
      rcases List.mem_cons.mp hk with rfl | hk
      · exact hlt
      · intro l hl
        have h1 : l < k0 := hlt l hl
        have h2 : k0 < k := ih htail k hk k0 rfl
        exact lt_trans h1 h2

theorem slots_sorted {order : Nat} {hi : Option K} :
    ∀ {ks : List K} {lo : Option K} {vs : List (NVal K V)},
      Slots order lo hi ks vs → List.Sorted (· < ·) ks := by
  intro ks
  induction ks with
  | nil => intro _ _ _; simp
  | cons k ks ih =>
    intro lo vs h
    cases h with
    | cons _ _ _ _ _ _ hlt hwc htail =>
      rw [List.sorted_cons]
      exact ⟨fun b hb => slots_lo_lt htail b hb k rfl, ih htail⟩

theorem slots_get {order : Nat} {hi : Option K} :
    ∀ {ks : List K} {lo : Option K} {vs : List (NVal K V)} {i : Nat} {v : NVal K V},
      Slots order lo hi ks vs → vs[i]? = some v →
      ∃ c, v = NVal.child c ∧ WF order (slotLo lo ks i) (slotHi hi ks i) c := by
  intro ks
  induction ks with
  | nil =>
    intro lo vs i v h hv
    cases h with
    | last _ _ c hwc =>
      cases i with
      | zero =>
        simp only [List.getElem?_cons_zero, Option.some_inj] at hv
        exact ⟨c, hv.symm, by simpa [slotHi_nil] using hwc⟩
      | succ j => simp at hv
  | cons k ks ih =>
    intro lo vs i v h hv
    cases h with
    | cons _ _ _ _ c vs' hlt hwc htail =>
      cases i with
      | zero =>
        simp only [List.getElem?_cons_zero, Option.some_inj] at hv
        exact ⟨c, hv.symm, by simpa [slotHi_cons_zero] using hwc⟩
      | succ j =>
        simp only [List.getElem?_cons_succ] at hv
        obtain ⟨c', hc', hwf'⟩ := ih htail hv
        exact ⟨c', hc', by rwa [slotLo_succ, slotHi_succ]⟩

theorem slots_set {order : Nat} {hi : Option K} :
    ∀ {ks : List K} {lo : Option K} {vs : List (NVal K V)} {i : Nat} {v : NVal K V}
      {cN : Node K V},
      Slots order lo hi ks vs → vs[i]? = some v →
      WF order (slotLo lo ks i) (slotHi hi ks i) cN →
      Slots order lo hi ks (vs.set i (NVal.child cN)) := by
  intro ks
  induction ks with
  | nil =>
    intro lo vs i v cN h hv hw
    cases h with
    | last _ _ c hwc =>
      cases i with
      | zero =>
        simp only [List.set_cons_zero]
        exact Slots.last _ _ cN (by simpa [slotHi_nil] using hw)
      | succ j => simp at hv
  | cons k ks ih =>
    intro lo vs i v cN h hv hw
    cases h with
    | cons _ _ _ _ c vs' hlt hwc htail =>
      cases i with
      | zero =>
        simp only [List.set_cons_zero]
        exact Slots.cons _ _ _ _ cN vs' hlt (by simpa [slotHi_cons_zero] using hw) htail
      | succ j =>
        simp only [List.getElem?_cons_succ] at hv
        rw [slotLo_succ, slotHi_succ] at hw
        simp only [List.set_cons_succ]
        exact Slots.cons _ _ _ _ c _ hlt hwc (ih htail hv hw)

theorem slots_mem_wf {order : Nat} {hi : Option K} :
    ∀ {ks : List K} {lo : Option K} {vs : List (NVal K V)} {c : Node K V},
      Slots order lo hi ks vs → NVal.child c ∈ vs →
      ∃ lo' hi', WF order lo' hi' c := by
  intro ks
  induction ks with
  | nil =>
    intro lo vs c h hm
    cases h with
    | last _ _ c0 hwc =>
      rcases List.mem_cons.mp hm with he | hm
      · cases he; exact ⟨_, _, hwc⟩
      · simp at hm
  | cons k ks ih =>
    intro lo vs c h hm
    cases h with
    | cons _ _ _ _ c0 vs' hlt hwc htail =>
      rcases List.mem_cons.mp hm with he | hm
      · cases he; exact ⟨_, _, hwc⟩
      · exact ih htail hm

/-- Replacing the child in slot `index` by two children `lN`, `rN` separated
by `pivot` (the effect of a successful `_merge`) preserves the slot
structure, provided `pivot` lies strictly inside slot `index`'s range and
the new children are well-formed on the two halves. -/
theorem slots_replace {order : Nat} {hi : Option K} {pivot : K} {lN rN : Node K V} :
    ∀ (index : Nat) {ks : List K} {lo : Option K} {vs : List (NVal K V)},
      Slots order lo hi ks vs → index ≤ ks.length →
      WF order (slotLo lo ks index) (some pivot) lN →
      WF order (some pivot) (slotHi hi ks index) rN →
      loLT (slotLo lo ks index) pivot →
      hiGT (slotHi hi ks index) pivot →
      Slots order lo hi (ks.take index ++ pivot :: ks.drop index)
        (vs.take index ++ NVal.child lN :: NVal.child rN :: vs.drop (index + 1)) := by
  intro index
  induction index with
  | zero =>
    intro ks lo vs h _ hwl hwr hplo hphi
    cases h with
    | last _ _ c hwc =>
      simp only [List.take_nil, List.drop_nil, List.nil_append, List.take_zero,
        List.drop_succ_cons, List.drop_nil]
      exact Slots.cons _ _ _ _ _ _ hplo hwl
        (Slots.last _ _ rN (by simpa [slotHi_nil] using hwr))
    | cons _ _ k ks' c vs' hlt hwc htail =>
      simp only [List.take_zero, List.drop_zero, List.nil_append, List.drop_succ_cons,
        List.drop_zero]
      refine Slots.cons _ _ _ _ _ _ hplo hwl ?_
      refine Slots.cons _ _ _ _ _ _ ?_ ?_ htail
      · intro l hl
        cases hl
        exact hphi k (by simp [slotHi_cons_zero])
      · simpa [slotHi_cons_zero] using hwr
  | succ j ih =>
    intro ks lo vs h hle hwl hwr hplo hphi
    cases h with
    | last => simp at hle
    | cons _ _ k ks' c vs' hlt hwc htail =>
      rw [slotLo_succ] at hwl hplo
      rw [slotHi_succ] at hwr hphi
      simp only [List.take_succ_cons, List.drop_succ_cons, List.cons_append]
      exact Slots.cons _ _ _ _ _ _ hlt hwc
        (ih htail (by simpa using hle) hwl hwr hplo hphi)

/-! ### Characterization of `_find` -/

theorem slotHi_eq_some {hi : Option K} {ks : List K} {i : Nat} {b : K}
    (hg : ks[i]? = some b) : slotHi hi ks i = some b := by
  unfold slotHi
  simp only [hg]

theorem slotHi_eq_none {hi : Option K} {ks : List K} {i : Nat}
    (hg : ks[i]? = none) : slotHi hi ks i = hi := by
  unfold slotHi
  simp only [hg]

theorem find_spec {o : Nat} {ks : List K} {vs : List (NVal K V)} {lf : Bool} {key : K}
    (hne : ks ≠ []) (hlen : ks.length < vs.length) :
    ∃ v index, _find (Node.mk o ks vs lf) key = some (v, index) ∧
      vs[index]? = some v ∧ index ≤ ks.length ∧
      (∀ x ∈ ks.take index, x ≤ key) ∧
      (∀ b, ks[index]? = some b → key < b) := by
  cases hs : scanIdx (fun item => decide (key < item)) ks with
  | some i =>
    have hi : i < ks.length := scanIdx_lt_length hs
    have hiv : i < vs.length := lt_trans hi hlen
    have hv : vs[i]? = some vs[i] := List.getElem?_eq_getElem hiv
    refine ⟨vs[i], i, ?_, hv, le_of_lt hi, ?_, ?_⟩
    · unfold _find
      simp only [keys_mk, values_mk, hs, hv]
    · intro x hx
      simpa [not_lt] using of_decide_eq_false (scanIdx_take hs x hx)
    · intro b hb
      obtain ⟨a, ha, hpa⟩ := scanIdx_getElem hs
      rw [ha, Option.some_inj] at hb
      subst hb
      exact of_decide_eq_true hpa
  | none =>
    have hemp : ks.isEmpty = false := by
      cases ks with
      | nil => exact absurd rfl hne
      | cons a l => rfl
    have hv : vs[ks.length]? = some vs[ks.length] := List.getElem?_eq_getElem hlen
    refine ⟨vs[ks.length], ks.length, ?_, hv, le_refl _, ?_, ?_⟩
    · unfold _find
      simp only [keys_mk, values_mk, hs, hemp, Bool.false_eq_true, if_false, hv]
    · intro x hx
      rw [List.take_length] at hx
      simpa [not_lt] using of_decide_eq_false (scanIdx_none hs x hx)
    · intro b hb
      rw [List.getElem?_eq_none (le_refl _)] at hb
      cases hb

/-- The key being inserted or looked up lies in the range of the child slot
`_find` selects. -/
theorem find_slot_inb {lo hi : Option K} {ks : List K} {key : K} {index : Nat}
    (hlo : loLE lo key) (hhi : hiGT hi key) (hidx : index ≤ ks.length)
    (htake : ∀ x ∈ ks.take index, x ≤ key)
    (hlt : ∀ b, ks[index]? = some b → key < b) :
    loLE (slotLo lo ks index) key ∧ hiGT (slotHi hi ks index) key := by
  constructor
  · cases index with
    | zero => simpa [slotLo] using hlo
    | succ j =>
      intro l hl
      simp only [slotLo] at hl
      refine htake l (List.mem_take_iff_getElem.mpr ?_)
      obtain ⟨hj, he⟩ := List.getElem?_eq_some_iff.mp hl
      exact ⟨j, lt_min_iff.mpr ⟨Nat.lt_succ_self j, hj⟩, he⟩
  · intro x hx
    cases hg : ks[index]? with
    | some b =>
      rw [slotHi_eq_some hg, Option.some_inj] at hx
      exact hx ▸ hlt b hg
    | none =>
      rw [slotHi_eq_none hg] at hx
      exact hhi x hx

/-! ### Specification of `Node.add` on a well-formed leaf -/

theorem addGo_spec {lo hi : Option K} {key : K} {value : V} {ks : List K}
    {vs : List (NVal K V)}
    (hlvs : vs.length = ks.length)
    (hbks : ∀ v ∈ vs, ∃ b, v = NVal.bucket b)
    (hsort : List.Sorted (· < ·) ks)
    (hrange : ∀ k ∈ ks, loLE lo k ∧ hiGT hi k)
    (hklo : loLE lo key) (hkhi : hiGT hi key) :
    ∀ (rest : List K) (i : Nat),
      rest = ks.drop i → i < ks.length →
      (∀ x ∈ ks.take i, x < key) →
      ∃ ks2 vs2, addGo key value ks vs rest i = some (ks2, vs2) ∧
        vs2.length = ks2.length ∧
        (∀ v ∈ vs2, ∃ b, v = NVal.bucket b) ∧
        List.Sorted (· < ·) ks2 ∧
        (∀ k ∈ ks2, loLE lo k ∧ hiGT hi k) ∧
        ks.length ≤ ks2.length ∧ ks2.length ≤ ks.length + 1 ∧
        (∀ x ∈ ks2, x ∈ ks ∨ x = key) := by
  intro rest
  induction rest with
  | nil =>
    intro i hrest hi _
    exfalso
    have : ks.drop i ≠ [] := by
      intro hd
      rw [List.drop_eq_nil_iff] at hd
      omega
    exact this hrest.symm
  | cons item rest' ih =>
    intro i hrest hi htake
    have hdrop : ks.drop i = ks[i] :: ks.drop (i + 1) := List.drop_eq_getElem_cons hi
    rw [hdrop] at hrest
    obtain ⟨hitem, hrest'⟩ : item = ks[i] ∧ rest' = ks.drop (i + 1) := by
      injection hrest.symm with h1 h2; exact ⟨h1.symm, h2.symm⟩
    simp only [addGo]
    by_cases hkey : key = item
    · rw [if_pos hkey]
      have hiv : i < vs.length := by omega
      have hv : vs[i]? = some vs[i] := List.getElem?_eq_getElem hiv
      obtain ⟨b, hb⟩ := hbks vs[i] (List.getElem_mem hiv)
      rw [hv, hb]
      refine ⟨ks, vs.set i (NVal.bucket (b ++ [value])), rfl, ?_, ?_, hsort, hrange,
        le_refl _, Nat.le_succ _, fun x hx => Or.inl hx⟩
      · simp [hlvs]
      · intro v hv'
        rcases List.mem_or_eq_of_mem_set hv' with hv' | rfl
        · exact hbks v hv'
        · exact ⟨b ++ [value], rfl⟩
    · rw [if_neg hkey]
      by_cases hlt : key < item
      · rw [if_pos hlt]
        have hdropgt : ∀ x ∈ ks.drop i, key < x := by
          intro x hx
          have hle : ks[i] ≤ x := sorted_drop_le hsort (List.getElem?_eq_getElem hi) x hx
          calc key < item := hlt
            _ = ks[i] := hitem
            _ ≤ x := hle
        refine ⟨ks.take i ++ key :: ks.drop i, vs.take i ++ NVal.bucket [value] :: vs.drop i,
          rfl, ?_, ?_, sorted_insertAt hsort htake hdropgt, ?_, ?_, ?_, ?_⟩
        · simp only [List.length_append, List.length_cons, List.length_take, List.length_drop]
          omega
        · intro v hv'
          rcases List.mem_append.mp hv' with hv' | hv'
          · exact hbks v (List.mem_of_mem_take hv')
          · rcases List.mem_cons.mp hv' with rfl | hv'
            · exact ⟨[value], rfl⟩
            · exact hbks v (List.mem_of_mem_drop hv')
        · intro k hk
          rcases mem_insertAt hk with hk | rfl
          · exact hrange k hk
          · exact ⟨hklo, hkhi⟩
        · simp only [List.length_append, List.length_cons, List.length_take, List.length_drop]
          omega
        · simp only [List.length_append, List.length_cons, List.length_take, List.length_drop]
          omega
        · exact fun x hx => mem_insertAt hx
      · rw [if_neg hlt]
        have hgt : item < key := lt_of_le_of_ne (not_lt.mp hlt) fun he => hkey he.symm
        by_cases hend : i + 1 = ks.length
        · rw [if_pos hend]
          have hvlen : vs.length = i + 1 := by omega
          have hg : (vs ++ [NVal.bucket ([value] : List V)])[i + 1]? =
              some (NVal.bucket [value]) := by
            rw [← hvlen]
            exact List.getElem?_concat_length vs (NVal.bucket [value])
          simp only [hg, List.singleton_append]
          have hksall : ∀ x ∈ ks, x < key := by
            intro x hx
            conv at hx => rw [← List.take_append_drop i ks]
            rcases List.mem_append.mp hx with hx | hx
            · exact htake x hx
            · rw [hdrop] at hx
              rcases List.mem_cons.mp hx with rfl | hx
              · rw [← hitem]; exact hgt
              · exfalso
                have : ks.drop (i + 1) = [] := by
                  rw [List.drop_eq_nil_iff]
                  omega
                rw [this] at hx
                cases hx
          have hset : (vs ++ [NVal.bucket ([value] : List V)]).set (i + 1)
              (NVal.bucket [value, value]) = vs ++ [NVal.bucket [value, value]] := by
            rw [List.set_append]
            rw [if_neg (by omega)]
            rw [hvlen]
            simp
          rw [hset]
          refine ⟨ks ++ [key], vs ++ [NVal.bucket [value, value]], rfl, ?_, ?_, ?_, ?_, ?_, ?_, ?_⟩
          · simp [hlvs]
          · intro v hv'
            rcases List.mem_append.mp hv' with hv' | hv'
            · exact hbks v hv'
            · rcases List.mem_cons.mp hv' with rfl | hv'
              · exact ⟨[value, value], rfl⟩
              · cases hv'
          · rw [List.Sorted, List.pairwise_append]
            refine ⟨hsort, by simp, ?_⟩
            intro a ha b hb
            rcases List.mem_cons.mp hb with rfl | hb
            · exact hksall a ha
            · cases hb
          · intro k hk
            rcases List.mem_append.mp hk with hk | hk
            · exact hrange k hk
            · rcases List.mem_cons.mp hk with rfl | hk
              · exact ⟨hklo, hkhi⟩
              · cases hk
          · simp
          · simp
          · intro x hx
            rcases List.mem_append.mp hx with hx | hx
            · exact Or.inl hx
            · rcases List.mem_cons.mp hx with rfl | hx
              · exact Or.inr rfl
              · cases hx
        · rw [if_neg hend]
          have hi' : i + 1 < ks.length := by omega
          have htake' : ∀ x ∈ ks.take (i + 1), x < key := by
            intro x hx
            rw [List.take_succ] at hx
            rcases List.mem_append.mp hx with hx | hx
            · exact htake x hx
            · rw [List.getElem?_eq_getElem hi] at hx
              have hxe : x = ks[i] := by simpa using hx
              rw [hxe, ← hitem]
              exact hgt
          exact ih (i + 1) hrest' hi' htake'

theorem addKV_spec {lo hi : Option K} {key : K} {value : V} {ks : List K}
    {vs : List (NVal K V)}
    (hlvs : vs.length = ks.length)
    (hbks : ∀ v ∈ vs, ∃ b, v = NVal.bucket b)
    (hsort : List.Sorted (· < ·) ks)
    (hrange : ∀ k ∈ ks, loLE lo k ∧ hiGT hi k)
    (hklo : loLE lo key) (hkhi : hiGT hi key) :
    ∃ ks2 vs2, addKV ks vs key value = some (ks2, vs2) ∧
      vs2.length = ks2.length ∧
      (∀ v ∈ vs2, ∃ b, v = NVal.bucket b) ∧
      List.Sorted (· < ·) ks2 ∧
      (∀ k ∈ ks2, loLE lo k ∧ hiGT hi k) ∧
      ks.length ≤ ks2.length ∧ ks2.length ≤ ks.length + 1 ∧
      (∀ x ∈ ks2, x ∈ ks ∨ x = key) := by
  cases ks with
  | nil =>
    have hvs : vs = [] := List.length_eq_zero.mp (by simpa using hlvs)
    subst hvs
    refine ⟨[key], [NVal.bucket [value]], by simp [addKV], by simp, ?_, by simp, ?_,
      by simp, by simp, ?_⟩
    · intro v hv
      rcases List.mem_cons.mp hv with rfl | hv
      · exact ⟨[value], rfl⟩
      · cases hv
    · intro k hk
      rcases List.mem_cons.mp hk with rfl | hk
      · exact ⟨hklo, hkhi⟩
      · cases hk
    · intro x hx
      rcases List.mem_cons.mp hx with rfl | hx
      · exact Or.inr rfl
      · cases hx
  | cons k0 ks' =>
    have he : addKV (k0 :: ks') vs key value = addGo key value (k0 :: ks') vs (k0 :: ks') 0 := by
      simp [addKV]
    rw [he]
    exact addGo_spec hlvs hbks hsort hrange hklo hkhi (k0 :: ks') 0 rfl (by simp) (by simp)

theorem add_wf {order : Nat} {lo hi : Option K} {ks : List K} {vs : List (NVal K V)}
    {key : K} {value : V}
    (hlvs : vs.length = ks.length)
    (hbks : ∀ v ∈ vs, ∃ b, v = NVal.bucket b)
    (hsort : List.Sorted (· < ·) ks)
    (hrange : ∀ k ∈ ks, loLE lo k ∧ hiGT hi k)
    (hklo : loLE lo key) (hkhi : hiGT hi key) :
    ∃ ks2 vs2, Node.add (Node.mk order ks vs true) key value =
        some (Node.mk order ks2 vs2 true) ∧
      vs2.length = ks2.length ∧
      (∀ v ∈ vs2, ∃ b, v = NVal.bucket b) ∧
      List.Sorted (· < ·) ks2 ∧
      (∀ k ∈ ks2, loLE lo k ∧ hiGT hi k) ∧
      ks.length ≤ ks2.length ∧ ks2.length ≤ ks.length + 1 ∧
      (∀ x ∈ ks2, x ∈ ks ∨ x = key) := by
  obtain ⟨ks2, vs2, heq, post⟩ :=
    @addKV_spec _ _ _ _ _ _ value _ _ hlvs hbks hsort hrange hklo hkhi
  refine ⟨ks2, vs2, ?_, post⟩
  unfold Node.add
  simp only [keys_mk, values_mk, heq, Option.map_some']

theorem split_spec {order : Nat} {lo hi : Option K} {ks : List K} {vs : List (NVal K V)}
    (h2 : 2 ≤ order) (hfull : ks.length = order)
    (hlvs : vs.length = ks.length)
    (hbks : ∀ v ∈ vs, ∃ b, v = NVal.bucket b)
    (hsort : List.Sorted (· < ·) ks)
    (hrange : ∀ k ∈ ks, loLE lo k ∧ hiGT hi k) :
    ∃ sep,
      Node.split (Node.mk order ks vs true) = some (Node.mk order [sep]
        [NVal.child (Node.mk order (ks.take (order / 2)) (vs.take (order / 2)) true),
         NVal.child (Node.mk order (ks.drop (order / 2)) (vs.drop (order / 2)) true)]
        false) ∧
      loLT lo sep ∧ hiGT hi sep ∧
      WF order lo (some sep) (Node.mk order (ks.take (order / 2)) (vs.take (order / 2)) true) ∧
      WF order (some sep) hi (Node.mk order (ks.drop (order / 2)) (vs.drop (order / 2)) true) ∧
      WF order lo hi (Node.mk order [sep]
        [NVal.child (Node.mk order (ks.take (order / 2)) (vs.take (order / 2)) true),
         NVal.child (Node.mk order (ks.drop (order / 2)) (vs.drop (order / 2)) true)]
        false) := by
  have hmid1 : 1 ≤ order / 2 := by omega
  have hmidlt : order / 2 < order := by omega
  have hmidks : order / 2 < ks.length := by omega
  have h0 : 0 < ks.length := by omega
  have hgsep : (ks.drop (order / 2))[0]? = some ks[order / 2] := by
    rw [List.getElem?_drop]
    exact List.getElem?_eq_getElem (by omega)
  have heq : Node.split (Node.mk order ks vs true) = some (Node.mk order [ks[order / 2]]
      [NVal.child (Node.mk order (ks.take (order / 2)) (vs.take (order / 2)) true),
       NVal.child (Node.mk order (ks.drop (order / 2)) (vs.drop (order / 2)) true)]
      false) := by
    unfold Node.split
    simp only [order_mk, keys_mk, values_mk, hgsep]
  have hsep0 : ks[0] < ks[order / 2] :=
    List.pairwise_iff_getElem.mp hsort 0 (order / 2) h0 hmidks (by omega)
  have hseplo : loLT lo ks[order / 2] := by
    intro l hl
    have h1 : l ≤ ks[0] := (hrange ks[0] (List.getElem_mem h0)).1 l hl
    exact lt_of_le_of_lt h1 hsep0
  have hsephi : hiGT hi ks[order / 2] :=
    (hrange ks[order / 2] (List.getElem_mem hmidks)).2
  have hwleft : WF order lo (some ks[order / 2])
      (Node.mk order (ks.take (order / 2)) (vs.take (order / 2)) true) := by
    refine WF.leaf _ _ _ _ ?_ ?_ ?_ ?_ ?_
    · simp only [List.length_take]
      omega
    · exact fun v hv => hbks v (List.mem_of_mem_take hv)
    · exact hsort.sublist (List.take_sublist _ _)
    · intro k hk
      refine ⟨(hrange k (List.mem_of_mem_take hk)).1, ?_⟩
      intro b hb
      rw [Option.some_inj] at hb
      subst hb
      exact sorted_take_lt hsort (List.getElem?_eq_getElem hmidks) k hk
    · simp only [List.length_take]
      omega
  have hwright : WF order (some ks[order / 2]) hi
      (Node.mk order (ks.drop (order / 2)) (vs.drop (order / 2)) true) := by
    refine WF.leaf _ _ _ _ ?_ ?_ ?_ ?_ ?_
    · simp only [List.length_drop]
      omega
    · exact fun v hv => hbks v (List.mem_of_mem_drop hv)
    · exact hsort.sublist (List.drop_sublist _ _)
    · intro k hk
      refine ⟨?_, (hrange k (List.mem_of_mem_drop hk)).2⟩
      intro b hb
      rw [Option.some_inj] at hb
      subst hb
      exact sorted_drop_le hsort (List.getElem?_eq_getElem hmidks) k hk
    · simp only [List.length_drop]
      omega
  refine ⟨ks[order / 2], heq, hseplo, hsephi, hwleft, hwright, ?_⟩
  refine WF.internal _ _ _ _ (by simp) (by simp; omega) ?_
  exact Slots.cons _ _ _ _ _ _ hseplo hwleft (Slots.last _ _ _ hwright)

/-! ### Characterization of `_merge` -/

theorem merge_eq {o o2 : Nat} {pks : List K} {pvs cvals : List (NVal K V)} {lf clf : Bool}
    {pivot : K} {index : Nat}
    (hlen : index < pvs.length) (hlen2 : pvs.length = pks.length + 1)
    (hne : pks ≠ []) (hidx : index ≤ pks.length)
    (htake : ∀ x ∈ pks.take index, x < pivot)
    (hdropgt : ∀ x ∈ pks.drop index, pivot < x) :
    _merge (Node.mk o pks pvs lf) (Node.mk o2 [pivot] cvals clf) index =
      some (Node.mk o (pks.take index ++ pivot :: pks.drop index)
        (pvs.take index ++ cvals ++ pvs.drop (index + 1)) lf) := by
  by_cases hcase : index < pks.length
  · have hscan : scanIdx (fun item => decide (pivot < item)) pks = some index := by
      refine scanIdx_intro_some (List.getElem?_eq_getElem hcase) ?_ ?_
      · refine decide_eq_true (hdropgt pks[index] ?_)
        rw [List.drop_eq_getElem_cons hcase]
        exact List.mem_cons_self _ _
      · intro x hx
        exact decide_eq_false (not_lt.mpr (le_of_lt (htake x hx)))
    unfold _merge
    simp only [keys_mk, values_mk, if_pos hlen, List.getElem?_cons_zero, hscan]
    rw [eraseIdx_take, eraseIdx_drop]
  · have hieq : index = pks.length := by omega
    have hscan : scanIdx (fun item => decide (pivot < item)) pks = none := by
      refine scanIdx_intro_none ?_
      intro x hx
      refine decide_eq_false (not_lt.mpr (le_of_lt (htake x ?_)))
      rw [hieq, List.take_length]
      exact hx
    have hemp : pks.isEmpty = false := by
      cases pks with
      | nil => exact absurd rfl hne
      | cons a l => rfl
    unfold _merge
    simp only [keys_mk, values_mk, if_pos hlen, List.getElem?_cons_zero, hscan, hemp,
      Bool.false_eq_true, if_false]
    have h1 : pks.take index ++ pivot :: pks.drop index = pks ++ [pivot] := by
      rw [hieq, List.take_length, List.drop_length]
    have h2 : pvs.eraseIdx index ++ cvals =
        pvs.take index ++ cvals ++ pvs.drop (index + 1) := by
      have hd : pvs.drop (index + 1) = [] := by
        rw [List.drop_eq_nil_iff]
        omega
      rw [eraseIdx_eq, hd]
      simp
    rw [h1, h2]

/-- A successful `_merge` of a freshly split child into a non-full internal
parent yields a well-formed internal node. -/
theorem merge_wf {order o2 : Nat} {lo hi : Option K} {pks : List K}
    {pvs : List (NVal K V)} {pivot : K} {lN rN : Node K V} {index : Nat}
    (hslots : Slots order lo hi pks pvs) (hk1 : 1 ≤ pks.length)
    (hnotfull : pks.length < order)
    (hidx : index ≤ pks.length) (hlen : index < pvs.length)
    (hwl : WF order (slotLo lo pks index) (some pivot) lN)
    (hwr : WF order (some pivot) (slotHi hi pks index) rN)
    (hplo : loLT (slotLo lo pks index) pivot)
    (hphi : hiGT (slotHi hi pks index) pivot) :
    ∃ n', _merge (Node.mk order pks pvs false)
        (Node.mk o2 [pivot] [NVal.child lN, NVal.child rN] false) index = some n' ∧
      WF order lo hi n' := by
  have hvslen : pvs.length = pks.length + 1 := slots_length hslots
  have hsort : List.Sorted (· < ·) pks := slots_sorted hslots
  have hne : pks ≠ [] := by
    intro h
    rw [h] at hk1
    simp at hk1
  have htake : ∀ x ∈ pks.take index, x < pivot := by
    intro x hx
    cases index with
    | zero => simp at hx
    | succ j =>
      have hj : j < pks.length := by omega
      have hjp : pks[j] < pivot := by
        refine hplo pks[j] ?_
        simp only [slotLo]
        exact List.getElem?_eq_getElem hj
      rw [List.take_succ, List.getElem?_eq_getElem hj] at hx
      rcases List.mem_append.mp hx with hx | hx
      · exact lt_trans (sorted_take_lt hsort (List.getElem?_eq_getElem hj) x hx) hjp
      · have hxe : x = pks[j] := by simpa using hx
        rw [hxe]
        exact hjp
  have hdropgt : ∀ x ∈ pks.drop index, pivot < x := by
    intro x hx
    cases hg : pks[index]? with
    | some b =>
      have hpb : pivot < b := hphi b (slotHi_eq_some hg)
      exact lt_of_lt_of_le hpb (sorted_drop_le hsort hg x hx)
    | none =>
      exfalso
      have : pks.length ≤ index := by
        by_contra hcon
        rw [List.getElem?_eq_getElem (by omega)] at hg
        cases hg
      have hd : pks.drop index = [] := by
        rw [List.drop_eq_nil_iff]
        omega
      rw [hd] at hx
      cases hx
  refine ⟨_, merge_eq hlen hvslen hne hidx htake hdropgt, ?_⟩
  have hsl := slots_replace index hslots hidx hwl hwr hplo hphi
  simp only [List.append_assoc, List.cons_append, List.nil_append]
  refine WF.internal _ _ _ _ ?_ ?_ hsl
  · simp only [List.length_append, List.length_cons, List.length_take, List.length_drop]
    omega
  · simp only [List.length_append, List.length_cons, List.length_take, List.length_drop]
    omega

/-! ### Unfolding lemmas for `insertNode` -/

theorem insertNode_leaf_eq {o : Nat} {ks : List K} {vs : List (NVal K V)}
    {key : K} {value : V} :
    insertNode (Node.mk o ks vs true) key value =
      match Node.add (Node.mk o ks vs true) key value with
      | none => none
      | some c => if c.is_full then c.split else some c := by
  rw [insertNode.eq_def]

theorem insertNode_internal_child {o : Nat} {ks : List K} {vs : List (NVal K V)}
    {key : K} {value : V} {c : Node K V} {index : Nat}
    (hf : _find (Node.mk o ks vs false) key = some (NVal.child c, index)) :
    insertNode (Node.mk o ks vs false) key value =
      if c.is_leaf then
        match Node.add c key value with
        | none => none
        | some c2 =>
          if c2.is_full then
            match c2.split with
            | none => none
            | some c3 =>
              if (Node.mk o ks vs false).is_full then
                some (Node.mk o ks (vs.set index (NVal.child c3)) false)
              else
                _merge (Node.mk o ks vs false) c3 index
          else some (Node.mk o ks (vs.set index (NVal.child c2)) false)
      else
        match insertNode c key value with
        | none => none
        | some c2 => some (Node.mk o ks (vs.set index (NVal.child c2)) false) := by
  rw [insertNode.eq_def]
  simp only [hf]
  split
  · next heq => rw [hf] at heq; cases heq
  · next b i heq => rw [hf] at heq; exact absurd heq (by simp)
  · next c' index' heq =>
    rw [hf] at heq
    injection heq with hp
    injection hp with h1 h2
    injection h1 with h3
    subst h3
    subst h2
    rfl

/-! ### Preservation of well-formedness by `insert` -/

theorem insertNode_wf {order : Nat} {key : K} {value : V} (h2 : 2 ≤ order) :
    ∀ (fuel : Nat) (n : Node K V) (lo hi : Option K), sizeOf n ≤ fuel →
      WF order lo hi n → loLE lo key → hiGT hi key →
      ∃ n', insertNode n key value = some n' ∧ WF order lo hi n' := by
  intro fuel
  induction fuel with
  | zero =>
    intro n lo hi hsz _ _ _
    exfalso
    cases n with
    | mk o ks vs lf =>
      simp only [Node.mk.sizeOf_spec] at hsz
      omega
  | succ fuel ih =>
    intro n lo hi hsz hw hklo hkhi
    cases hw with
    | leaf lo hi ks vs hlvs hbks hsort hrange hklen =>
      obtain ⟨ks2, vs2, hadd, hl2, hb2, hs2, hr2, hge, hle2, hsub⟩ :=
        @add_wf _ _ _ order _ _ _ _ _ value hlvs hbks hsort hrange hklo hkhi
      by_cases hfull : ks2.length = order
      · obtain ⟨sep, hsplit, hseplo, hsephi, hwleft, hwright, hwwhole⟩ :=
          split_spec h2 hfull hl2 hb2 hs2 hr2
        refine ⟨_, ?_, hwwhole⟩
        rw [insertNode_leaf_eq]
        simp only [hadd]
        have hft : (Node.mk order ks2 vs2 true).is_full = true := by
          simp [Node.is_full, hfull]
        rw [if_pos hft]
        exact hsplit
      · refine ⟨Node.mk order ks2 vs2 true, ?_, ?_⟩
        · rw [insertNode_leaf_eq]
          simp only [hadd]
          have hff : ¬ ((Node.mk order ks2 vs2 true).is_full = true) := by
            simp [Node.is_full, hfull]
          rw [if_neg hff]
        · refine WF.leaf _ _ _ _ hl2 hb2 hs2 hr2 ?_
          omega
    | internal lo hi ks vs hk1 hkord hslots =>
      have hvslen : vs.length = ks.length + 1 := slots_length hslots
      have hne : ks ≠ [] := by
        intro h
        rw [h] at hk1
        simp at hk1
      obtain ⟨v, index, hfind, hget, hidx, htake, hltb⟩ :=
        @find_spec _ _ _ order _ _ false key hne
          (show ks.length < vs.length by omega)
      obtain ⟨c, rfl, hwc⟩ := slots_get hslots hget
      obtain ⟨hslo, hshi⟩ := find_slot_inb hklo hkhi hidx htake hltb
      cases hwc with
      | leaf _ _ cks cvs hclvs hcbks hcsort hcrange hcklen =>
        obtain ⟨cks2, cvs2, hcadd, hcl2, hcb2, hcs2, hcr2, hcge, hcle2, hcsub⟩ :=
          @add_wf _ _ _ order _ _ _ _ _ value hclvs hcbks hcsort hcrange hslo hshi
        by_cases hcfull : cks2.length = order
        · obtain ⟨sep, hsplit, hseplo, hsephi, hwleft, hwright, hwwhole⟩ :=
            split_spec h2 hcfull hcl2 hcb2 hcs2 hcr2
          have hft : (Node.mk order cks2 cvs2 true).is_full = true := by
            simp [Node.is_full, hcfull]
          by_cases hpfull : ks.length = order
          · have hpft : (Node.mk order ks vs false).is_full = true := by
              simp [Node.is_full, hpfull]
            refine ⟨Node.mk order ks (vs.set index (NVal.child (Node.mk order [sep]
              [NVal.child (Node.mk order (List.take (order / 2) cks2)
                (List.take (order / 2) cvs2) true),
               NVal.child (Node.mk order (List.drop (order / 2) cks2)
                (List.drop (order / 2) cvs2) true)] false))) false, ?_, ?_⟩
            · rw [insertNode_internal_child hfind,
                if_pos (show (Node.mk order cks cvs true).is_leaf = true from rfl)]
              simp only [hcadd]
              rw [if_pos hft]
              simp only [hsplit]
              rw [if_pos hpft]
            · exact WF.internal _ _ _ _ hk1 hkord (slots_set hslots hget hwwhole)
          · have hpff : ¬ ((Node.mk order ks vs false).is_full = true) := by
              simp [Node.is_full, hpfull]
            have hnotfull : ks.length < order := lt_of_le_of_ne hkord hpfull
            obtain ⟨n', hmerge, hwfn'⟩ := merge_wf hslots hk1 hnotfull hidx
              (show index < vs.length by omega) hwleft hwright hseplo hsephi
            refine ⟨n', ?_, hwfn'⟩
            rw [insertNode_internal_child hfind,
                if_pos (show (Node.mk order cks cvs true).is_leaf = true from rfl)]
            simp only [hcadd]
            rw [if_pos hft]
            simp only [hsplit]
            rw [if_neg hpff]
            exact hmerge
        · have hcff : ¬ ((Node.mk order cks2 cvs2 true).is_full = true) := by
            simp [Node.is_full, hcfull]
          refine ⟨Node.mk order ks
            (vs.set index (NVal.child (Node.mk order cks2 cvs2 true))) false, ?_, ?_⟩
          · rw [insertNode_internal_child hfind,
                if_pos (show (Node.mk order cks cvs true).is_leaf = true from rfl)]
            simp only [hcadd]
            rw [if_neg hcff]
          · refine WF.internal _ _ _ _ hk1 hkord (slots_set hslots hget ?_)
            refine WF.leaf _ _ _ _ hcl2 hcb2 hcs2 hcr2 ?_
            omega
      | internal _ _ cks cvs hck1 hckord hcslots =>
        have hszc : sizeOf (Node.mk order cks cvs false) ≤ fuel := by
          have hlt := @sizeOf_lt_of_mem_values _ _ _ order ks _ false _
            (List.getElem?_mem hget)
          omega
        obtain ⟨c2, hc2, hwc2⟩ := ih (Node.mk order cks cvs false) _ _ hszc
          (WF.internal _ _ _ _ hck1 hckord hcslots) hslo hshi
        refine ⟨Node.mk order ks (vs.set index (NVal.child c2)) false, ?_, ?_⟩
        · rw [insertNode_internal_child hfind,
              if_neg (show ¬ ((Node.mk order cks cvs false).is_leaf = true) by simp)]
          simp only [hc2]
        · exact WF.internal _ _ _ _ hk1 hkord (slots_set hslots hget hwc2)

/-! ### Tree-level preservation and totality -/

theorem loLE_none {key : K} : loLE (none : Option K) key := by
  intro l hl
  cases hl

theorem hiGT_none {key : K} : hiGT (none : Option K) key := by
  intro h hh
  cases hh

theorem new_wf {order : Nat} (h2 : 2 ≤ order) :
    WF (K := K) (V := V) order none none (BPlusTree.new order).root := by
  refine WF.leaf _ _ _ _ rfl ?_ ?_ ?_ ?_
  · intro v hv
    cases hv
  · simp
  · intro k hk
    cases hk
  · simpa using by omega

theorem insert_tree_wf {order : Nat} {t : BPlusTree K V} {key : K} {value : V}
    (h2 : 2 ≤ order) (hw : WF order none none t.root) :
    ∃ t', t.insert key value = some t' ∧ WF order none none t'.root := by
  obtain ⟨n', heq, hwf⟩ := @insertNode_wf _ _ _ _ key value h2
    (sizeOf t.root) t.root none none (le_refl _) hw loLE_none hiGT_none
  exact ⟨⟨n'⟩, by simp [BPlusTree.insert, heq], hwf⟩

theorem build_total {order : Nat} (h2 : 2 ≤ order) :
    ∀ (ops : List (K × V)) (t0 : BPlusTree K V), WF order none none t0.root →
      ∃ t, ops.foldlM (fun t p => t.insert p.1 p.2) t0 = some t ∧
        WF order none none t.root := by
  intro ops
  induction ops with
  | nil =>
    intro t0 hw
    exact ⟨t0, rfl, hw⟩
  | cons p ops ih =>
    intro t0 hw
    obtain ⟨t1, h1, hw1⟩ := @insert_tree_wf _ _ _ _ _ p.1 p.2 h2 hw
    obtain ⟨t, ht, hwt⟩ := ih t1 hw1
    refine ⟨t, ?_, hwt⟩
    rw [List.foldlM_cons, h1]
    exact ht

theorem buildTree_total {order : Nat} (h2 : 2 ≤ order) (ops : List (K × V)) :
    ∃ t, buildTree (K := K) (V := V) order ops = some t ∧
      WF order none none t.root :=
  build_total h2 ops (BPlusTree.new order) (new_wf h2)

theorem buildTree_wf {order : Nat} {ops : List (K × V)} {t : BPlusTree K V}
    (h2 : 2 ≤ order) (hb : buildTree order ops = some t) :
    WF order none none t.root := by
  obtain ⟨t', he, hw⟩ := buildTree_total (K := K) (V := V) h2 ops
  rw [buildTree] at hb
  rw [buildTree] at he
  rw [he, Option.some_inj] at hb
  rwa [hb] at hw

/-! ### Unfolding lemmas and totality for `retrieve` -/

theorem retrieveNode_leaf_eq {o : Nat} {ks : List K} {vs : List (NVal K V)} {key : K} :
    retrieveNode (Node.mk o ks vs true) key =
      match scanIdx (fun item => decide (key = item)) ks with
      | some i =>
        match vs[i]? with
        | some v => some (some v)
        | none => none
      | none => some none := by
  rw [retrieveNode.eq_def]

theorem retrieveNode_internal_none {o : Nat} {ks : List K} {vs : List (NVal K V)}
    {key : K} (hf : _find (Node.mk o ks vs false) key = none) :
    retrieveNode (Node.mk o ks vs false) key = none := by
  rw [retrieveNode.eq_def]
  simp only [hf]
  split
  · rfl
  · rfl
  · next c' i' heq => rw [hf] at heq; cases heq

theorem retrieveNode_internal_bucket {o : Nat} {ks : List K} {vs : List (NVal K V)}
    {key : K} {b : List V} {index : Nat}
    (hf : _find (Node.mk o ks vs false) key = some (NVal.bucket b, index)) :
    retrieveNode (Node.mk o ks vs false) key = none := by
  rw [retrieveNode.eq_def]
  simp only [hf]
  split
  · rfl
  · rfl
  · next c' i' heq => rw [hf] at heq; exact absurd heq (by simp)

theorem retrieveNode_internal_child {o : Nat} {ks : List K} {vs : List (NVal K V)}
    {key : K} {c : Node K V} {index : Nat}
    (hf : _find (Node.mk o ks vs false) key = some (NVal.child c, index)) :
    retrieveNode (Node.mk o ks vs false) key = retrieveNode c key := by
  rw [retrieveNode.eq_def]
  simp only [hf]
  split
  · next heq => rw [hf] at heq; cases heq
  · next b i heq => rw [hf] at heq; exact absurd heq (by simp)
  · next c' index' heq =>
    rw [hf] at heq
    injection heq with hp
    injection hp with h1 h2
    injection h1 with h3
    subst h3
    rfl

theorem retrieveNode_total {order : Nat} {key : K} :
    ∀ (fuel : Nat) (n : Node K V) (lo hi : Option K), sizeOf n ≤ fuel →
      WF order lo hi n → ∃ r, retrieveNode n key = some r := by
  intro fuel
  induction fuel with
  | zero =>
    intro n lo hi hsz _
    exfalso
    cases n with
    | mk o ks vs lf =>
      simp only [Node.mk.sizeOf_spec] at hsz
      omega
  | succ fuel ih =>
    intro n lo hi hsz hw
    cases hw with
    | leaf lo hi ks vs hlvs hbks hsort hrange hklen =>
      cases hs : scanIdx (fun item => decide (key = item)) ks with
      | some i =>
        have hi : i < vs.length := by
          have := scanIdx_lt_length hs
          omega
        have hv : vs[i]? = some vs[i] := List.getElem?_eq_getElem hi
        refine ⟨some vs[i], ?_⟩
        rw [retrieveNode_leaf_eq]
        simp only [hs, hv]
      | none =>
        refine ⟨none, ?_⟩
        rw [retrieveNode_leaf_eq]
        simp only [hs]
    | internal lo hi ks vs hk1 hkord hslots =>
      have hvslen : vs.length = ks.length + 1 := slots_length hslots
      have hne : ks ≠ [] := by
        intro h
        rw [h] at hk1
        simp at hk1
      obtain ⟨v, index, hfind, hget, hidx, htake, hltb⟩ :=
        @find_spec _ _ _ order _ _ false key hne
          (show ks.length < vs.length by omega)
      obtain ⟨c, rfl, hwc⟩ := slots_get hslots hget
      rw [retrieveNode_internal_child hfind]
      have hszc : sizeOf c ≤ fuel := by
        have hlt := @sizeOf_lt_of_mem_values _ _ _ order ks _ false _
          (List.getElem?_mem hget)
        omega
      exact ih c _ _ hszc hwc

/-! ### Keys stored in the tree: only inserted keys ever appear -/

theorem allKeys_mk {o : Nat} {ks : List K} {vs : List (NVal K V)} {lf : Bool} :
    allKeys (Node.mk o ks vs lf) = ks ++ allKeysVals vs := by
  rw [allKeys]

theorem allKeysVals_append {l1 l2 : List (NVal K V)} :
    allKeysVals (l1 ++ l2) = allKeysVals l1 ++ allKeysVals l2 := by
  induction l1 with
  | nil => simp [allKeysVals]
  | cons v rest ih =>
    cases v with
    | bucket b => simpa [allKeysVals] using ih
    | child c => simp [allKeysVals, ih]

theorem allKeysVals_split {vs : List (NVal K V)} {i : Nat} :
    allKeysVals vs = allKeysVals (vs.take i) ++ allKeysVals (vs.drop i) := by
  rw [← allKeysVals_append, List.take_append_drop]

theorem allKeysVals_take_sub {vs : List (NVal K V)} {i : Nat} {x : K}
    (h : x ∈ allKeysVals (vs.take i)) : x ∈ allKeysVals vs := by
  rw [allKeysVals_split (i := i)]
  exact List.mem_append.mpr (Or.inl h)

theorem allKeysVals_drop_sub {vs : List (NVal K V)} {i : Nat} {x : K}
    (h : x ∈ allKeysVals (vs.drop i)) : x ∈ allKeysVals vs := by
  rw [allKeysVals_split (i := i)]
  exact List.mem_append.mpr (Or.inr h)

theorem allKeys_child_sub :
    ∀ {vs : List (NVal K V)} {c : Node K V}, NVal.child c ∈ vs →
      ∀ x ∈ allKeys c, x ∈ allKeysVals vs := by
  intro vs
  induction vs with
  | nil => intro c hm; cases hm
  | cons v rest ih =>
    intro c hm x hx
    rcases List.mem_cons.mp hm with he | hm2
    · rw [← he, allKeysVals]
      exact List.mem_append.mpr (Or.inl hx)
    · cases v with
      | bucket b => rw [allKeysVals]; exact ih hm2 x hx
      | child c' => rw [allKeysVals]; exact List.mem_append.mpr (Or.inr (ih hm2 x hx))

theorem allKeysVals_set_bucket {b : List V} :
    ∀ {vs : List (NVal K V)} {i : Nat} {x : K},
      x ∈ allKeysVals (vs.set i (NVal.bucket b)) → x ∈ allKeysVals vs := by
  intro vs
  induction vs with
  | nil => intro i x h; simpa using h
  | cons v rest ih =>
    intro i x h
    cases i with
    | zero =>
      rw [List.set_cons_zero, allKeysVals] at h
      cases v with
      | bucket b' => rw [allKeysVals]; exact h
      | child c => rw [allKeysVals]; exact List.mem_append.mpr (Or.inr h)
    | succ j =>
      rw [List.set_cons_succ] at h
      cases v with
      | bucket b' =>
        rw [allKeysVals] at h ⊢
        exact ih h
      | child c =>
        rw [allKeysVals] at h ⊢
        rcases List.mem_append.mp h with h | h
        · exact List.mem_append.mpr (Or.inl h)
        · exact List.mem_append.mpr (Or.inr (ih h))

theorem allKeysVals_set_child {c : Node K V} :
    ∀ {vs : List (NVal K V)} {i : Nat} {x : K},
      x ∈ allKeysVals (vs.set i (NVal.child c)) →
      x ∈ allKeysVals vs ∨ x ∈ allKeys c := by
  intro vs
  induction vs with
  | nil => intro i x h; exact Or.inl h
  | cons v rest ih =>
    intro i x h
    cases i with
    | zero =>
      rw [List.set_cons_zero, allKeysVals] at h
      rcases List.mem_append.mp h with h | h
      · exact Or.inr h
      · cases v with
        | bucket b' => rw [allKeysVals]; exact Or.inl h
        | child c' => rw [allKeysVals]; exact Or.inl (List.mem_append.mpr (Or.inr h))
    | succ j =>
      rw [List.set_cons_succ] at h
      cases v with
      | bucket b' =>
        rw [allKeysVals] at h ⊢
        exact ih h
      | child c' =>
        rw [allKeysVals] at h ⊢
        rcases List.mem_append.mp h with h | h
        · exact Or.inl (List.mem_append.mpr (Or.inl h))
        · rcases ih h with h | h
          · exact Or.inl (List.mem_append.mpr (Or.inr h))
          · exact Or.inr h

theorem addGo_keys_sub {key : K} {value : V} {ks : List K} {vs : List (NVal K V)} :
    ∀ (rest : List K) (i : Nat) {ks2 : List K} {vs2 : List (NVal K V)},
      addGo key value ks vs rest i = some (ks2, vs2) →
      (∀ x ∈ ks2, x ∈ ks ∨ x = key) ∧
      (∀ x ∈ allKeysVals vs2, x ∈ allKeysVals vs) := by
  intro rest
  induction rest with
  | nil =>
    intro i ks2 vs2 h
    simp only [addGo] at h
    cases h
    exact ⟨fun x hx => Or.inl hx, fun x hx => hx⟩
  | cons item rest' ih =>
    intro i ks2 vs2 h
    simp only [addGo] at h
    by_cases h1 : key = item
    · rw [if_pos h1] at h
      cases hg : vs[i]? with
      | none => rw [hg] at h; cases h
      | some v =>
        cases v with
        | child c => rw [hg] at h; cases h
        | bucket b =>
          rw [hg] at h
          cases h
          exact ⟨fun x hx => Or.inl hx, fun x hx => allKeysVals_set_bucket hx⟩
    · rw [if_neg h1] at h
      by_cases h2 : key < item
      · rw [if_pos h2] at h
        cases h
        refine ⟨fun x hx => mem_insertAt hx, ?_⟩
        intro x hx
        rw [allKeysVals_append] at hx
        rcases List.mem_append.mp hx with hx | hx
        · exact allKeysVals_take_sub hx
        · rw [allKeysVals] at hx
          exact allKeysVals_drop_sub hx
      · rw [if_neg h2] at h
        by_cases h3 : i + 1 = ks.length
        · rw [if_pos h3] at h
          cases hg : (vs ++ [NVal.bucket ([value] : List V)])[i + 1]? with
          | none => rw [hg] at h; cases h
          | some v =>
            cases v with
            | child c => rw [hg] at h; cases h
            | bucket b =>
              rw [hg] at h
              cases h
              constructor
              · intro x hx
                rcases List.mem_append.mp hx with hx | hx
                · exact Or.inl hx
                · rcases List.mem_cons.mp hx with rfl | hx
                  · exact Or.inr rfl
                  · cases hx
              · intro x hx
                have hx2 := allKeysVals_set_bucket hx
                rw [allKeysVals_append] at hx2
                rcases List.mem_append.mp hx2 with hx2 | hx2
                · exact hx2
                · simp [allKeysVals] at hx2
        · rw [if_neg h3] at h
          exact ih (i + 1) h

theorem add_keys_sub {key : K} {value : V} {o : Nat} {ks : List K}
    {vs : List (NVal K V)} {lf : Bool} {n' : Node K V}
    (h : Node.add (Node.mk o ks vs lf) key value = some n') :
    ∀ x ∈ allKeys n', x ∈ allKeys (Node.mk o ks vs lf) ∨ x = key := by
  unfold Node.add at h
  simp only [keys_mk, values_mk] at h
  cases hkv : addKV ks vs key value with
  | none => rw [hkv] at h; cases h
  | some p =>
    rw [hkv] at h
    simp only [Option.map_some', Option.some_inj] at h
    subst h
    intro x hx
    rw [allKeys_mk] at hx
    rw [allKeys_mk]
    obtain ⟨hks, hvs⟩ : (∀ y ∈ p.1, y ∈ ks ∨ y = key) ∧
        (∀ y ∈ allKeysVals p.2, y ∈ allKeysVals vs) := by
      unfold addKV at hkv
      by_cases hemp : ks.isEmpty
      · rw [if_pos hemp] at hkv
        have hknil : ks = [] := List.isEmpty_iff.mp hemp
        subst hknil
        obtain ⟨p1, p2⟩ := p
        cases hkv
        constructor
        · intro y hy
          rcases List.mem_cons.mp hy with rfl | hy
          · exact Or.inr rfl
          · cases hy
        · intro y hy
          rw [allKeysVals_append] at hy
          rcases List.mem_append.mp hy with hy | hy
          · exact hy
          · simp [allKeysVals] at hy
      · rw [if_neg hemp] at hkv
        exact addGo_keys_sub ks 0 hkv
    rcases List.mem_append.mp hx with hx | hx
    · rcases hks x hx with hx | hx
      · exact Or.inl (List.mem_append.mpr (Or.inl hx))
      · exact Or.inr hx
    · exact Or.inl (List.mem_append.mpr (Or.inr (hvs x hx)))

theorem split_keys_sub {o : Nat} {ks : List K} {vs : List (NVal K V)} {lf : Bool}
    {n' : Node K V} (h : Node.split (Node.mk o ks vs lf) = some n') :
    ∀ x ∈ allKeys n', x ∈ allKeys (Node.mk o ks vs lf) := by
  unfold Node.split at h
  simp only [keys_mk, values_mk, order_mk] at h
  cases hg : (ks.drop (o / 2))[0]? with
  | none => rw [hg] at h; cases h
  | some sep =>
    rw [hg] at h
    simp only [Option.some_inj] at h
    subst h
    intro x hx
    rw [allKeys_mk] at hx ⊢
    have hsep : sep ∈ ks := List.mem_of_mem_drop (List.getElem?_mem hg)
    rcases List.mem_append.mp hx with hx | hx
    · rcases List.mem_cons.mp hx with rfl | hx
      · exact List.mem_append.mpr (Or.inl hsep)
      · cases hx
    · rw [allKeysVals] at hx
      rcases List.mem_append.mp hx with hx | hx
      · rw [allKeys_mk] at hx
        rcases List.mem_append.mp hx with hx | hx
        · exact List.mem_append.mpr (Or.inl (List.mem_of_mem_take hx))
        · exact List.mem_append.mpr (Or.inr (allKeysVals_take_sub hx))
      · rw [allKeysVals] at hx
        rcases List.mem_append.mp hx with hx | hx
        · rw [allKeys_mk] at hx
          rcases List.mem_append.mp hx with hx | hx
          · exact List.mem_append.mpr (Or.inl (List.mem_of_mem_drop hx))
          · exact List.mem_append.mpr (Or.inr (allKeysVals_drop_sub hx))
        · simp [allKeysVals] at hx

theorem merge_eq_def {o : Nat} {pks : List K} {pvs : List (NVal K V)} {lf : Bool}
    {child : Node K V} {index : Nat} :
    _merge (Node.mk o pks pvs lf) child index =
      if index < pvs.length then
        match child.keys[0]? with
        | none => none
        | some pivot =>
          match scanIdx (fun item => decide (pivot < item)) pks with
          | some i =>
            some (Node.mk o (pks.take i ++ pivot :: pks.drop i)
              ((pvs.eraseIdx index).take i ++ child.values ++ (pvs.eraseIdx index).drop i) lf)
          | none =>
            if pks.isEmpty then some (Node.mk o pks (pvs.eraseIdx index) lf)
            else some (Node.mk o (pks ++ [pivot]) (pvs.eraseIdx index ++ child.values) lf)
      else none := rfl

theorem merge_keys_sub {o : Nat} {pks : List K} {pvs : List (NVal K V)} {lf : Bool}
    {child : Node K V} {index : Nat} {n' : Node K V}
    (h : _merge (Node.mk o pks pvs lf) child index = some n') :
    ∀ x ∈ allKeys n', x ∈ allKeys (Node.mk o pks pvs lf) ∨ x ∈ allKeys child := by
  rw [merge_eq_def] at h
  by_cases hlen : index < pvs.length
  · rw [if_pos hlen] at h
    cases hg : child.keys[0]? with
    | none => simp only [hg] at h; cases h
    | some pivot =>
      simp only [hg] at h
      have hpivot : pivot ∈ allKeys child := by
        cases child with
        | mk co cks cvs clf =>
          rw [allKeys_mk]
          exact List.mem_append.mpr (Or.inl (List.getElem?_mem (by simpa using hg)))
      have hcvals : ∀ y ∈ allKeysVals child.values, y ∈ allKeys child := by
        cases child with
        | mk co cks cvs clf =>
          intro y hy
          rw [allKeys_mk]
          exact List.mem_append.mpr (Or.inr (by simpa using hy))
      have herase : ∀ y ∈ allKeysVals (pvs.eraseIdx index), y ∈ allKeysVals pvs := by
        intro y hy
        rw [eraseIdx_eq, allKeysVals_append] at hy
        rcases List.mem_append.mp hy with hy | hy
        · exact allKeysVals_take_sub hy
        · exact allKeysVals_drop_sub hy
      cases hs : scanIdx (fun item => decide (pivot < item)) pks with
      | some i =>
        simp only [hs, Option.some_inj] at h
        subst h
        intro x hx
        rw [allKeys_mk] at hx
        rcases List.mem_append.mp hx with hx | hx
        · rcases mem_insertAt hx with hx | rfl
          · exact Or.inl (by rw [allKeys_mk]; exact List.mem_append.mpr (Or.inl hx))
          · exact Or.inr hpivot
        · rw [allKeysVals_append, allKeysVals_append] at hx
          rcases List.mem_append.mp hx with hx | hx
          · rcases List.mem_append.mp hx with hx | hx
            · exact Or.inl (by
                rw [allKeys_mk]
                exact List.mem_append.mpr (Or.inr (herase x (allKeysVals_take_sub hx))))
            · exact Or.inr (hcvals x hx)
          · exact Or.inl (by
              rw [allKeys_mk]
              exact List.mem_append.mpr (Or.inr (herase x (allKeysVals_drop_sub hx))))
      | none =>
        simp only [hs] at h
        by_cases hemp : pks.isEmpty
        · rw [if_pos hemp] at h
          simp only [Option.some_inj] at h
          subst h
          intro x hx
          rw [allKeys_mk] at hx
          rcases List.mem_append.mp hx with hx | hx
          · exact Or.inl (by rw [allKeys_mk]; exact List.mem_append.mpr (Or.inl hx))
          · exact Or.inl (by
              rw [allKeys_mk]
              exact List.mem_append.mpr (Or.inr (herase x hx)))
        · rw [if_neg hemp] at h
          simp only [Option.some_inj] at h
          subst h
          intro x hx
          rw [allKeys_mk] at hx
          rcases List.mem_append.mp hx with hx | hx
          · rcases List.mem_append.mp hx with hx | hx
            · exact Or.inl (by rw [allKeys_mk]; exact List.mem_append.mpr (Or.inl hx))
            · rcases List.mem_cons.mp hx with rfl | hx
              · exact Or.inr hpivot
              · cases hx
          · rw [allKeysVals_append] at hx
            rcases List.mem_append.mp hx with hx | hx
            · exact Or.inl (by
                rw [allKeys_mk]
                exact List.mem_append.mpr (Or.inr (herase x hx)))
            · exact Or.inr (hcvals x hx)
  · rw [if_neg hlen] at h
    cases h

theorem insertNode_internal_none {o : Nat} {ks : List K} {vs : List (NVal K V)}
    {key : K} {value : V} (hf : _find (Node.mk o ks vs false) key = none) :
    insertNode (Node.mk o ks vs false) key value = none := by
  rw [insertNode.eq_def]
  simp only [hf]
  split
  · rfl
  · rfl
  · next c' i' heq => rw [hf] at heq; cases heq

theorem insertNode_internal_bucket {o : Nat} {ks : List K} {vs : List (NVal K V)}
    {key : K} {value : V} {b : List V} {index : Nat}
    (hf : _find (Node.mk o ks vs false) key = some (NVal.bucket b, index)) :
    insertNode (Node.mk o ks vs false) key value = none := by
  rw [insertNode.eq_def]
  simp only [hf]
  split
  · rfl
  · rfl
  · next c' i' heq => rw [hf] at heq; exact absurd heq (by simp)

theorem insertNode_keys_sub {key : K} {value : V} :
    ∀ (fuel : Nat) (n n' : Node K V), sizeOf n ≤ fuel →
      insertNode n key value = some n' →
      ∀ x ∈ allKeys n', x ∈ allKeys n ∨ x = key := by
  intro fuel
  induction fuel with
  | zero =>
    intro n n' hsz _
    exfalso
    cases n with
    | mk o ks vs lf =>
      simp only [Node.mk.sizeOf_spec] at hsz
      omega
  | succ fuel ih =>
    intro n n' hsz h
    cases n with
    | mk o ks vs lf =>
      cases lf with
      | true =>
        rw [insertNode_leaf_eq] at h
        cases hadd : Node.add (Node.mk o ks vs true) key value with
        | none => rw [hadd] at h; cases h
        | some c =>
          simp only [hadd] at h
          cases c with
          | mk co cks cvs clf =>
            by_cases hfull : (Node.mk co cks cvs clf).is_full = true
            · rw [if_pos hfull] at h
              intro x hx
              exact add_keys_sub hadd x (split_keys_sub h x hx)
            · rw [if_neg hfull] at h
              cases h
              exact add_keys_sub hadd
      | false =>
        cases hf : _find (Node.mk o ks vs false) key with
        | none => rw [insertNode_internal_none hf] at h; cases h
        | some p =>
          obtain ⟨v, index⟩ := p
          cases v with
          | bucket b => rw [insertNode_internal_bucket hf] at h; cases h
          | child c =>
            have hcmem : NVal.child c ∈ vs := mem_values_of_find hf
            have hcsub : ∀ x ∈ allKeys c, x ∈ allKeys (Node.mk o ks vs false) := by
              intro x hx
              rw [allKeys_mk]
              exact List.mem_append.mpr (Or.inr (allKeys_child_sub hcmem x hx))
            rw [insertNode_internal_child hf] at h
            cases c with
            | mk co cks cvs clf =>
              by_cases hcl : (Node.mk co cks cvs clf).is_leaf = true
              · rw [if_pos hcl] at h
                cases hadd : Node.add (Node.mk co cks cvs clf) key value with
                | none => rw [hadd] at h; cases h
                | some c2 =>
                  simp only [hadd] at h
                  cases c2 with
                  | mk c2o c2ks c2vs c2lf =>
                    have hc2sub : ∀ x ∈ allKeys (Node.mk c2o c2ks c2vs c2lf),
                        x ∈ allKeys (Node.mk o ks vs false) ∨ x = key := by
                      intro x hx
                      rcases add_keys_sub hadd x hx with hx | hx
                      · exact Or.inl (hcsub x hx)
                      · exact Or.inr hx
                    by_cases hc2f : (Node.mk c2o c2ks c2vs c2lf).is_full = true
                    · rw [if_pos hc2f] at h
                      cases hsplit : (Node.mk c2o c2ks c2vs c2lf).split with
                      | none => rw [hsplit] at h; cases h
                      | some c3 =>
                        simp only [hsplit] at h
                        have hc3sub : ∀ x ∈ allKeys c3,
                            x ∈ allKeys (Node.mk o ks vs false) ∨ x = key := by
                          intro x hx
                          exact hc2sub x (split_keys_sub hsplit x hx)
                        by_cases hpf : (Node.mk o ks vs false).is_full = true
                        · rw [if_pos hpf] at h
                          cases h
                          intro x hx
                          rw [allKeys_mk] at hx
                          rcases List.mem_append.mp hx with hx | hx
                          · exact Or.inl (by
                              rw [allKeys_mk]
                              exact List.mem_append.mpr (Or.inl hx))
                          · rcases allKeysVals_set_child hx with hx | hx
                            · exact Or.inl (by
                                rw [allKeys_mk]
                                exact List.mem_append.mpr (Or.inr hx))
                            · exact hc3sub x hx
                        · rw [if_neg hpf] at h
                          intro x hx
                          rcases merge_keys_sub h x hx with hx | hx
                          · exact Or.inl hx
                          · exact hc3sub x hx
                    · rw [if_neg hc2f] at h
                      cases h
                      intro x hx
                      rw [allKeys_mk] at hx
                      rcases List.mem_append.mp hx with hx | hx
                      · exact Or.inl (by
                          rw [allKeys_mk]
                          exact List.mem_append.mpr (Or.inl hx))
                      · rcases allKeysVals_set_child hx with hx | hx
                        · exact Or.inl (by
                            rw [allKeys_mk]
                            exact List.mem_append.mpr (Or.inr hx))
                        · exact hc2sub x hx
              · rw [if_neg hcl] at h
                cases hrec : insertNode (Node.mk co cks cvs clf) key value with
                | none => rw [hrec] at h; cases h
                | some c2 =>
                  simp only [hrec] at h
                  cases h
                  have hszc : sizeOf (Node.mk co cks cvs clf) ≤ fuel := by
                    have hlt := @sizeOf_lt_of_mem_values _ _ _ o ks _ false _ hcmem
                    omega
                  intro x hx
                  rw [allKeys_mk] at hx
                  rcases List.mem_append.mp hx with hx | hx
                  · exact Or.inl (by
                      rw [allKeys_mk]
                      exact List.mem_append.mpr (Or.inl hx))
                  · rcases allKeysVals_set_child hx with hx | hx
                    · exact Or.inl (by
                        rw [allKeys_mk]
                        exact List.mem_append.mpr (Or.inr hx))
                    · rcases ih _ _ hszc hrec x hx with hx | hx
                      · exact Or.inl (hcsub x hx)
                      · exact Or.inr hx

theorem retrieveNode_found {key : K} :
    ∀ (fuel : Nat) (n : Node K V) {v : NVal K V}, sizeOf n ≤ fuel →
      retrieveNode n key = some (some v) → key ∈ allKeys n := by
  intro fuel
  induction fuel with
  | zero =>
    intro n v hsz _
    exfalso
    cases n with
    | mk o ks vs lf =>
      simp only [Node.mk.sizeOf_spec] at hsz
      omega
  | succ fuel ih =>
    intro n v hsz h
    cases n with
    | mk o ks vs lf =>
      cases lf with
      | true =>
        rw [retrieveNode_leaf_eq] at h
        cases hs : scanIdx (fun item => decide (key = item)) ks with
        | none =>
          rw [hs] at h
          exact absurd h (by simp)
        | some i =>
          obtain ⟨a, ha, hpa⟩ := scanIdx_getElem hs
          have hka : key = a := of_decide_eq_true hpa
          rw [allKeys_mk]
          exact List.mem_append.mpr (Or.inl (hka ▸ List.getElem?_mem ha))
      | false =>
        cases hf : _find (Node.mk o ks vs false) key with
        | none => rw [retrieveNode_internal_none hf] at h; cases h
        | some p =>
          obtain ⟨w, index⟩ := p
          cases w with
          | bucket b => rw [retrieveNode_internal_bucket hf] at h; cases h
          | child c =>
            rw [retrieveNode_internal_child hf] at h
            have hcmem : NVal.child c ∈ vs := mem_values_of_find hf
            have hszc : sizeOf c ≤ fuel := by
              have hlt := @sizeOf_lt_of_mem_values _ _ _ o ks _ false _ hcmem
              omega
            have := ih c hszc h
            rw [allKeys_mk]
            exact List.mem_append.mpr (Or.inr (allKeys_child_sub hcmem key this))

theorem build_keys_sub :
    ∀ (ops : List (K × V)) (t0 t : BPlusTree K V),
      ops.foldlM (fun t p => t.insert p.1 p.2) t0 = some t →
      ∀ x ∈ allKeys t.root, x ∈ allKeys t0.root ∨ x ∈ ops.map Prod.fst := by
  intro ops
  induction ops with
  | nil =>
    intro t0 t h
    cases h
    exact fun x hx => Or.inl hx
  | cons p ops ih =>
    intro t0 t h
    rw [List.foldlM_cons] at h
    cases hins : t0.insert p.1 p.2 with
    | none => rw [hins] at h; cases h
    | some t1 =>
      rw [hins] at h
      intro x hx
      rcases ih t1 t h x hx with hx | hx
      · unfold BPlusTree.insert at hins
        cases hi2 : insertNode t0.root p.1 p.2 with
        | none => rw [hi2] at hins; cases hins
        | some n1 =>
          rw [hi2] at hins
          simp only [Option.map_some', Option.some_inj] at hins
          rcases insertNode_keys_sub (sizeOf t0.root) t0.root n1 (le_refl _) hi2 x
            (by rw [← hins] at hx; exact hx) with hx | hx
          · exact Or.inl hx
          · exact Or.inr (by simp [hx])
      · exact Or.inr (by
          rw [List.map_cons]
          exact List.mem_cons.mpr (Or.inr hx))

/-! ### Properties of all reachable nodes -/

theorem wf_reach {order : Nat} {n m : Node K V} {lo hi : Option K}
    (hw : WF order lo hi n) (hr : Reach n m) :
    ∃ lo' hi', WF order lo' hi' m := by
  induction hr generalizing lo hi with
  | refl n => exact ⟨lo, hi, hw⟩
  | step n c m hmem _ ih =>
    cases hw with
    | leaf _ _ ks vs hlvs hbks hsort hrange hklen =>
      obtain ⟨b, hb⟩ := hbks _ (by simpa using hmem)
      cases hb
    | internal _ _ ks vs hk1 hkord hslots =>
      obtain ⟨lo', hi', hwc⟩ := slots_mem_wf hslots (by simpa using hmem)
      exact ih hwc

theorem wf_node_props {order : Nat} {lo hi : Option K} {m : Node K V}
    (hw : WF order lo hi m) :
    m.keys.length ≤ order ∧
    (m.is_leaf = true → m.values.length = m.keys.length ∧ m.keys.length < order) ∧
    (m.is_leaf = false → m.values.length = m.keys.length + 1 ∧ 1 ≤ m.keys.length) ∧
    List.Sorted (· < ·) m.keys ∧ m.order = order := by
  cases hw with
  | leaf _ _ ks vs hlvs hbks hsort hrange hklen =>
    refine ⟨by simpa using le_of_lt hklen, ?_, ?_, by simpa using hsort, by simp⟩
    · intro _
      exact ⟨by simpa using hlvs, by simpa using hklen⟩
    · intro hc
      simp at hc
  | internal _ _ ks vs hk1 hkord hslots =>
    refine ⟨by simpa using hkord, ?_, ?_, by simpa using slots_sorted hslots, by simp⟩
    · intro hc
      simp at hc
    · intro _
      exact ⟨by simpa using slots_length hslots, by simpa using hk1⟩

theorem buildTree_reach_props {order : Nat} {ops : List (K × V)} {t : BPlusTree K V}
    (h2 : 2 ≤ order) (hb : buildTree order ops = some t) :
    ∀ m : Node K V, Reach t.root m →
      m.keys.length ≤ order ∧
      (m.is_leaf = true → m.values.length = m.keys.length ∧ m.keys.length < order) ∧
      (m.is_leaf = false → m.values.length = m.keys.length + 1 ∧ 1 ≤ m.keys.length) ∧
      List.Sorted (· < ·) m.keys ∧ m.order = order := by
  intro m hr
  obtain ⟨lo', hi', hw⟩ := wf_reach (buildTree_wf h2 hb) hr
  exact wf_node_props hw

theorem merge_is_leaf {o : Nat} {pks : List K} {pvs : List (NVal K V)} {lf : Bool}
    {child : Node K V} {index : Nat} {n' : Node K V}
    (h : _merge (Node.mk o pks pvs lf) child index = some n') : n'.is_leaf = lf := by
  rw [merge_eq_def] at h
  by_cases hlen : index < pvs.length
  · rw [if_pos hlen] at h
    cases hg : child.keys[0]? with
    | none => simp only [hg] at h; cases h
    | some pivot =>
      simp only [hg] at h
      cases hs : scanIdx (fun item => decide (pivot < item)) pks with
      | some i =>
        simp only [hs] at h
        cases h
        rfl
      | none =>
        simp only [hs] at h
        by_cases hemp : pks.isEmpty
        · rw [if_pos hemp] at h
          cases h
          rfl
        · rw [if_neg hemp] at h
          cases h
          rfl
  · rw [if_neg hlen] at h
    cases h

/-! ### Evaluation helpers for concrete trees -/

theorem insert_step {t : BPlusTree K V} {k : K} {v : V} {n' : Node K V}
    (h : insertNode t.root k v = some n') : t.insert k v = some ⟨n'⟩ := by
  rw [BPlusTree.insert, h]
  rfl

theorem foldl_insert_cons {p : K × V} {ops : List (K × V)} {t0 t1 : BPlusTree K V}
    (h : t0.insert p.1 p.2 = some t1) :
    List.foldlM (fun t q => t.insert q.1 q.2) t0 (p :: ops) =
      List.foldlM (fun t q => t.insert q.1 q.2) t1 ops := by
  rw [List.foldlM_cons, h]
  rfl

/-- Order-4 tree after inserting (10,100) then (20,200): the second value is
stored twice because the append branch of `Node.add` lacks a `break`. -/
theorem eval_build_two : (buildTree 4 [(10, 100), (20, 200)] : Option (BPlusTree Nat Nat)) =
    some ⟨Node.mk 4 [10, 20] [NVal.bucket [100], NVal.bucket [200, 200]] true⟩ := by
  have s1 : insertNode (Node.mk 4 [] [] true) 10 100 =
      some (Node.mk 4 [10] [NVal.bucket [100]] true) := by
    rw [insertNode_leaf_eq]
    rfl
  have s2 : insertNode (Node.mk 4 [10] [NVal.bucket [100]] true) 20 200 =
      some (Node.mk 4 [10, 20] [NVal.bucket [100], NVal.bucket [200, 200]] true) := by
    rw [insertNode_leaf_eq]
    rfl
  rw [buildTree]
  rw [foldl_insert_cons (insert_step s1), foldl_insert_cons (insert_step s2)]
  rfl

/-- Order-2 tree after inserting 10, 20, 30: the root ends with two keys
(equal to the order) and is not split. -/
theorem eval_build_three : (buildTree 2 [(10, 1), (20, 2), (30, 3)] :
      Option (BPlusTree Nat Nat)) =
    some ⟨Node.mk 2 [20, 30]
      [NVal.child (Node.mk 2 [10] [NVal.bucket [1]] true),
       NVal.child (Node.mk 2 [20] [NVal.bucket [2, 2]] true),
       NVal.child (Node.mk 2 [30] [NVal.bucket [3, 3]] true)] false⟩ := by
  have s1 : insertNode (Node.mk 2 [] [] true) 10 1 =
      some (Node.mk 2 [10] [NVal.bucket [1]] true) := by
    rw [insertNode_leaf_eq]
    rfl
  have s2 : insertNode (Node.mk 2 [10] [NVal.bucket [1]] true) 20 2 =
      some (Node.mk 2 [20]
        [NVal.child (Node.mk 2 [10] [NVal.bucket [1]] true),
         NVal.child (Node.mk 2 [20] [NVal.bucket [2, 2]] true)] false) := by
    rw [insertNode_leaf_eq]
    rfl
  have s3 : insertNode (Node.mk 2 [20]
        [NVal.child (Node.mk 2 [10] [NVal.bucket [1]] true),
         NVal.child (Node.mk 2 [20] [NVal.bucket [2, 2]] true)] false) 30 3 =
      some (Node.mk 2 [20, 30]
        [NVal.child (Node.mk 2 [10] [NVal.bucket [1]] true),
         NVal.child (Node.mk 2 [20] [NVal.bucket [2, 2]] true),
         NVal.child (Node.mk 2 [30] [NVal.bucket [3, 3]] true)] false) := by
    rw [insertNode_internal_child (show _find (Node.mk 2 [20]
        [NVal.child (Node.mk 2 [10] [NVal.bucket [1]] true),
         NVal.child (Node.mk 2 [20] [NVal.bucket [2, 2]] true)] false) 30 =
      some (NVal.child (Node.mk 2 [20] [NVal.bucket [2, 2]] true), 1) from rfl)]
    rfl
  rw [buildTree]
  rw [foldl_insert_cons (insert_step s1), foldl_insert_cons (insert_step s2),
    foldl_insert_cons (insert_step s3)]
  rfl

/-- Order-2 tree after inserting 10 and 20: the root leaf fills and splits. -/
theorem eval_build_split : (buildTree 2 [(10, 1), (20, 2)] :
      Option (BPlusTree Nat Nat)) =
    some ⟨Node.mk 2 [20]
      [NVal.child (Node.mk 2 [10] [NVal.bucket [1]] true),
       NVal.child (Node.mk 2 [20] [NVal.bucket [2, 2]] true)] false⟩ := by
  have s1 : insertNode (Node.mk 2 [] [] true) 10 1 =
      some (Node.mk 2 [10] [NVal.bucket [1]] true) := by
    rw [insertNode_leaf_eq]
    rfl
  have s2 : insertNode (Node.mk 2 [10] [NVal.bucket [1]] true) 20 2 =
      some (Node.mk 2 [20]
        [NVal.child (Node.mk 2 [10] [NVal.bucket [1]] true),
         NVal.child (Node.mk 2 [20] [NVal.bucket [2, 2]] true)] false) := by
    rw [insertNode_leaf_eq]
    rfl
  rw [buildTree]
  rw [foldl_insert_cons (insert_step s1), foldl_insert_cons (insert_step s2)]
  rfl

/-- Order-2 tree after a single insert. -/
theorem eval_build_one : (buildTree 2 [(10, 1)] : Option (BPlusTree Nat Nat)) =
    some ⟨Node.mk 2 [10] [NVal.bucket [1]] true⟩ := by
  have s1 : insertNode (Node.mk 2 [] [] true) 10 1 =
      some (Node.mk 2 [10] [NVal.bucket [1]] true) := by
    rw [insertNode_leaf_eq]
    rfl
  rw [buildTree]
  rw [foldl_insert_cons (insert_step s1)]
  rfl

/-- The concrete §8.6 scenario with keys 0,1,2,3 (numerals) and the demo's
Roman-numeral values, order 4: the fourth insert splits the root leaf at
mid = 2; every value inserted via the buggy append branch is doubled. -/
theorem eval_build_scenario :
    (buildTree 4 [(0, "nulla"), (1, "I"), (2, "II"), (3, "III")] :
      Option (BPlusTree Nat String)) =
    some ⟨Node.mk 4 [2]
      [NVal.child (Node.mk 4 [0, 1]
        [NVal.bucket ["nulla"], NVal.bucket ["I", "I"]] true),
       NVal.child (Node.mk 4 [2, 3]
        [NVal.bucket ["II", "II"], NVal.bucket ["III", "III"]] true)] false⟩ := by
  have s1 : insertNode (Node.mk 4 [] [] true) 0 "nulla" =
      some (Node.mk 4 [0] [NVal.bucket ["nulla"]] true) := by
    rw [insertNode_leaf_eq]
    rfl
  have s2 : insertNode (Node.mk 4 [0] [NVal.bucket ["nulla"]] true) 1 "I" =
      some (Node.mk 4 [0, 1] [NVal.bucket ["nulla"], NVal.bucket ["I", "I"]] true) := by
    rw [insertNode_leaf_eq]
    rfl
  have s3 : insertNode (Node.mk 4 [0, 1]
        [NVal.bucket ["nulla"], NVal.bucket ["I", "I"]] true) 2 "II" =
      some (Node.mk 4 [0, 1, 2]
        [NVal.bucket ["nulla"], NVal.bucket ["I", "I"], NVal.bucket ["II", "II"]] true) := by
    rw [insertNode_leaf_eq]
    rfl
  have s4 : insertNode (Node.mk 4 [0, 1, 2]
        [NVal.bucket ["nulla"], NVal.bucket ["I", "I"], NVal.bucket ["II", "II"]] true)
        3 "III" =
      some (Node.mk 4 [2]
        [NVal.child (Node.mk 4 [0, 1]
          [NVal.bucket ["nulla"], NVal.bucket ["I", "I"]] true),
         NVal.child (Node.mk 4 [2, 3]
          [NVal.bucket ["II", "II"], NVal.bucket ["III", "III"]] true)] false) := by
    rw [insertNode_leaf_eq]
    rfl
  rw [buildTree]
  rw [foldl_insert_cons (insert_step s1), foldl_insert_cons (insert_step s2),
    foldl_insert_cons (insert_step s3), foldl_insert_cons (insert_step s4)]
  rfl

/-! ### The claims -/

/-- C1: the round-trip property fails on the code: after inserting (10,100)
and then (20,200) into a fresh order-4 tree, fetching 20 returns the bucket
[200, 200] — the single inserted value twice — because the branch of
`Node.add` that appends a new maximum key has no `break`, so the loop
continues onto the appended key and appends the value again.  The claim
requires the bucket to hold exactly the values inserted, in order, i.e.
[200]. -/
theorem claim1_round_trip_bug :
    (buildTree 4 [(10, 100), (20, 200)] : Option (BPlusTree Nat Nat)) =
      some ⟨Node.mk 4 [10, 20] [NVal.bucket [100], NVal.bucket [200, 200]] true⟩ ∧
    (⟨Node.mk 4 [10, 20] [NVal.bucket [100], NVal.bucket [200, 200]] true⟩ :
        BPlusTree Nat Nat).retrieve 20 = some (some (NVal.bucket [200, 200])) := by
  refine ⟨eval_build_two, ?_⟩
  show retrieveNode (Node.mk 4 [10, 20]
    [NVal.bucket [100], NVal.bucket [200, 200]] true) 20 = _
  rw [retrieveNode_leaf_eq]
  rfl

/-- C2 counterexample: constructing a tree with order 1 does not fail — no
validation exists in `BPlusTree.__init__` — and the resulting tree is
usable: an insert succeeds and the key can be fetched back. -/
theorem claim2_counterexample :
    (BPlusTree.new 1 : BPlusTree Nat Nat) = ⟨Node.mk 1 [] [] true⟩ ∧
    (BPlusTree.new 1 : BPlusTree Nat Nat).insert 5 7 =
      some ⟨Node.mk 1 [5]
        [NVal.child (Node.mk 1 [] [] true),
         NVal.child (Node.mk 1 [5] [NVal.bucket [7]] true)] false⟩ ∧
    (⟨Node.mk 1 [5]
        [NVal.child (Node.mk 1 [] [] true),
         NVal.child (Node.mk 1 [5] [NVal.bucket [7]] true)] false⟩ :
      BPlusTree Nat Nat).retrieve 5 = some (some (NVal.bucket [7])) := by
  refine ⟨rfl, ?_, ?_⟩
  · refine insert_step ?_
    show insertNode (Node.mk 1 [] [] true) 5 7 = _
    rw [insertNode_leaf_eq]
    rfl
  · show retrieveNode (Node.mk 1 [5]
      [NVal.child (Node.mk 1 [] [] true),
       NVal.child (Node.mk 1 [5] [NVal.bucket [7]] true)] false) 5 = _
    rw [retrieveNode_internal_child (show _find (Node.mk 1 [5]
        [NVal.child (Node.mk 1 [] [] true),
         NVal.child (Node.mk 1 [5] [NVal.bucket [7]] true)] false) 5 =
      some (NVal.child (Node.mk 1 [5] [NVal.bucket [7]] true), 1) from rfl),
      retrieveNode_leaf_eq]
    rfl

/-- C2 amended: the constructor performs no validation of the order: for
every order (including 0 and 1) it succeeds and returns a tree whose root is
an empty leaf, and even an order-0 tree supports insert and fetch. -/
theorem claim2_amended :
    (∀ o : Nat, (BPlusTree.new o : BPlusTree K V) = ⟨Node.mk o [] [] true⟩) ∧
    (BPlusTree.new 0 : BPlusTree Nat Nat).insert 5 7 =
      some ⟨Node.mk 0 [5] [NVal.bucket [7]] true⟩ ∧
    (⟨Node.mk 0 [5] [NVal.bucket [7]] true⟩ : BPlusTree Nat Nat).retrieve 5 =
      some (some (NVal.bucket [7])) := by
  refine ⟨fun o => rfl, ?_, ?_⟩
  · refine insert_step ?_
    show insertNode (Node.mk 0 [] [] true) 5 7 = _
    rw [insertNode_leaf_eq]
    rfl
  · show retrieveNode (Node.mk 0 [5] [NVal.bucket [7]] true) 5 = _
    rw [retrieveNode_leaf_eq]
    rfl

/-- C3 counterexample: with order 2, after inserting 10, 20, 30, the third
insert returns with the root holding 2 = order keys, yet the root was not
split (a node that `split` just produced always carries exactly one key and
two values).  This refutes the claim that any node reaching `order` keys
during an insert — here the root, which gains its second key via `_merge` —
is split before the insert returns. -/
theorem claim3_counterexample :
    (buildTree 2 [(10, 1), (20, 2), (30, 3)] : Option (BPlusTree Nat Nat)) =
      some ⟨Node.mk 2 [20, 30]
        [NVal.child (Node.mk 2 [10] [NVal.bucket [1]] true),
         NVal.child (Node.mk 2 [20] [NVal.bucket [2, 2]] true),
         NVal.child (Node.mk 2 [30] [NVal.bucket [3, 3]] true)] false⟩ ∧
    (Node.mk 2 [20, 30]
        [NVal.child (Node.mk 2 [10] [NVal.bucket [1]] true),
         NVal.child (Node.mk 2 [20] [NVal.bucket [2, 2]] true),
         NVal.child (Node.mk 2 [30] [NVal.bucket [3, 3]] true)] false :
      Node Nat Nat).keys.length = 2 ∧
    (Node.mk 2 [20, 30]
        [NVal.child (Node.mk 2 [10] [NVal.bucket [1]] true),
         NVal.child (Node.mk 2 [20] [NVal.bucket [2, 2]] true),
         NVal.child (Node.mk 2 [30] [NVal.bucket [3, 3]] true)] false :
      Node Nat Nat).is_leaf = false :=
  ⟨eval_build_three, rfl, rfl⟩

/-- C3 amended: after every insert on a tree with order ≥ 2, every reachable
node holds at most `order` keys, and every reachable leaf holds strictly
fewer than `order` keys (a leaf that fills to `order` keys is split before
the insert returns).  An internal node may keep `order` keys without being
split. -/
theorem claim3_amended (order : Nat) (ops : List (K × V)) (t : BPlusTree K V)
    (h2 : 2 ≤ order) (hb : buildTree order ops = some t) :
    ∀ m : Node K V, Reach t.root m →
      m.keys.length ≤ order ∧ (m.is_leaf = true → m.keys.length < order) := by
  intro m hr
  obtain ⟨h1, h2', _, _, _⟩ := buildTree_reach_props h2 hb m hr
  exact ⟨h1, fun hlf => (h2' hlf).2⟩

theorem claim3_witness :
    (Node.mk 2 [20, 30]
        [NVal.child (Node.mk 2 [10] [NVal.bucket [1]] true),
         NVal.child (Node.mk 2 [20] [NVal.bucket [2, 2]] true),
         NVal.child (Node.mk 2 [30] [NVal.bucket [3, 3]] true)] false :
      Node Nat Nat).keys.length ≤ 2 ∧
    ((Node.mk 2 [20, 30]
        [NVal.child (Node.mk 2 [10] [NVal.bucket [1]] true),
         NVal.child (Node.mk 2 [20] [NVal.bucket [2, 2]] true),
         NVal.child (Node.mk 2 [30] [NVal.bucket [3, 3]] true)] false :
      Node Nat Nat).is_leaf = true →
      (Node.mk 2 [20, 30]
        [NVal.child (Node.mk 2 [10] [NVal.bucket [1]] true),
         NVal.child (Node.mk 2 [20] [NVal.bucket [2, 2]] true),
         NVal.child (Node.mk 2 [30] [NVal.bucket [3, 3]] true)] false :
      Node Nat Nat).keys.length < 2) :=
  claim3_amended 2 [(10, 1), (20, 2), (30, 3)] _ (by decide) eval_build_three _
    (Reach.refl _)

/-- C4: the concrete order-4 scenario (keys 0,1,2,3 standing for the
numerals "0".."3", values the demo's Roman numerals): the fourth insert does
fill and split the root leaf at mid = 4 / 2 = 2, after which the root is
internal with keys [2]; but fetching keys 1, 2 and 3 returns two-element
buckets (the single inserted value duplicated by the missing `break` in
`Node.add`), not the claimed single-element buckets; only key 0, inserted
into the empty node, has a one-element bucket. -/
theorem claim4_scenario_bug :
    (buildTree 4 [(0, "nulla"), (1, "I"), (2, "II"), (3, "III")] :
        Option (BPlusTree Nat String)) =
      some ⟨Node.mk 4 [2]
        [NVal.child (Node.mk 4 [0, 1]
          [NVal.bucket ["nulla"], NVal.bucket ["I", "I"]] true),
         NVal.child (Node.mk 4 [2, 3]
          [NVal.bucket ["II", "II"], NVal.bucket ["III", "III"]] true)] false⟩ ∧
    (Node.mk 4 [2]
        [NVal.child (Node.mk 4 [0, 1]
          [NVal.bucket ["nulla"], NVal.bucket ["I", "I"]] true),
         NVal.child (Node.mk 4 [2, 3]
          [NVal.bucket ["II", "II"], NVal.bucket ["III", "III"]] true)] false :
      Node Nat String).is_leaf = false ∧
    (Node.mk 4 [2]
        [NVal.child (Node.mk 4 [0, 1]
          [NVal.bucket ["nulla"], NVal.bucket ["I", "I"]] true),
         NVal.child (Node.mk 4 [2, 3]
          [NVal.bucket ["II", "II"], NVal.bucket ["III", "III"]] true)] false :
      Node Nat String).keys = [2] ∧
    (⟨Node.mk 4 [2]
        [NVal.child (Node.mk 4 [0, 1]
          [NVal.bucket ["nulla"], NVal.bucket ["I", "I"]] true),
         NVal.child (Node.mk 4 [2, 3]
          [NVal.bucket ["II", "II"], NVal.bucket ["III", "III"]] true)] false⟩ :
      BPlusTree Nat String).retrieve 0 = some (some (NVal.bucket ["nulla"])) ∧
    (⟨Node.mk 4 [2]
        [NVal.child (Node.mk 4 [0, 1]
          [NVal.bucket ["nulla"], NVal.bucket ["I", "I"]] true),
         NVal.child (Node.mk 4 [2, 3]
          [NVal.bucket ["II", "II"], NVal.bucket ["III", "III"]] true)] false⟩ :
      BPlusTree Nat String).retrieve 1 = some (some (NVal.bucket ["I", "I"])) ∧
    (⟨Node.mk 4 [2]
        [NVal.child (Node.mk 4 [0, 1]
          [NVal.bucket ["nulla"], NVal.bucket ["I", "I"]] true),
         NVal.child (Node.mk 4 [2, 3]
          [NVal.bucket ["II", "II"], NVal.bucket ["III", "III"]] true)] false⟩ :
      BPlusTree Nat String).retrieve 2 = some (some (NVal.bucket ["II", "II"])) ∧
    (⟨Node.mk 4 [2]
        [NVal.child (Node.mk 4 [0, 1]
          [NVal.bucket ["nulla"], NVal.bucket ["I", "I"]] true),
         NVal.child (Node.mk 4 [2, 3]
          [NVal.bucket ["II", "II"], NVal.bucket ["III", "III"]] true)] false⟩ :
      BPlusTree Nat String).retrieve 3 = some (some (NVal.bucket ["III", "III"])) := by
  refine ⟨eval_build_scenario, rfl, rfl, ?_, ?_, ?_, ?_⟩
  · show retrieveNode (Node.mk 4 [2]
      [NVal.child (Node.mk 4 [0, 1]
        [NVal.bucket ["nulla"], NVal.bucket ["I", "I"]] true),
       NVal.child (Node.mk 4 [2, 3]
        [NVal.bucket ["II", "II"], NVal.bucket ["III", "III"]] true)] false) 0 = _
    rw [retrieveNode_internal_child (show _find (Node.mk 4 [2]
        [NVal.child (Node.mk 4 [0, 1]
          [NVal.bucket ["nulla"], NVal.bucket ["I", "I"]] true),
         NVal.child (Node.mk 4 [2, 3]
          [NVal.bucket ["II", "II"], NVal.bucket ["III", "III"]] true)] false) 0 =
      some (NVal.child (Node.mk 4 [0, 1]
        [NVal.bucket ["nulla"], NVal.bucket ["I", "I"]] true), 0) from rfl),
      retrieveNode_leaf_eq]
    rfl
  · show retrieveNode (Node.mk 4 [2]
      [NVal.child (Node.mk 4 [0, 1]
        [NVal.bucket ["nulla"], NVal.bucket ["I", "I"]] true),
       NVal.child (Node.mk 4 [2, 3]
        [NVal.bucket ["II", "II"], NVal.bucket ["III", "III"]] true)] false) 1 = _
    rw [retrieveNode_internal_child (show _find (Node.mk 4 [2]
        [NVal.child (Node.mk 4 [0, 1]
          [NVal.bucket ["nulla"], NVal.bucket ["I", "I"]] true),
         NVal.child (Node.mk 4 [2, 3]
          [NVal.bucket ["II", "II"], NVal.bucket ["III", "III"]] true)] false) 1 =
      some (NVal.child (Node.mk 4 [0, 1]
        [NVal.bucket ["nulla"], NVal.bucket ["I", "I"]] true), 0) from rfl),
      retrieveNode_leaf_eq]
    rfl
  · show retrieveNode (Node.mk 4 [2]
      [NVal.child (Node.mk 4 [0, 1]
        [NVal.bucket ["nulla"], NVal.bucket ["I", "I"]] true),
       NVal.child (Node.mk 4 [2, 3]
        [NVal.bucket ["II", "II"], NVal.bucket ["III", "III"]] true)] false) 2 = _
    rw [retrieveNode_internal_child (show _find (Node.mk 4 [2]
        [NVal.child (Node.mk 4 [0, 1]
          [NVal.bucket ["nulla"], NVal.bucket ["I", "I"]] true),
         NVal.child (Node.mk 4 [2, 3]
          [NVal.bucket ["II", "II"], NVal.bucket ["III", "III"]] true)] false) 2 =
      some (NVal.child (Node.mk 4 [2, 3]
        [NVal.bucket ["II", "II"], NVal.bucket ["III", "III"]] true), 1) from rfl),
      retrieveNode_leaf_eq]
    rfl
  · show retrieveNode (Node.mk 4 [2]
      [NVal.child (Node.mk 4 [0, 1]
        [NVal.bucket ["nulla"], NVal.bucket ["I", "I"]] true),
       NVal.child (Node.mk 4 [2, 3]
        [NVal.bucket ["II", "II"], NVal.bucket ["III", "III"]] true)] false) 3 = _
    rw [retrieveNode_internal_child (show _find (Node.mk 4 [2]
        [NVal.child (Node.mk 4 [0, 1]
          [NVal.bucket ["nulla"], NVal.bucket ["I", "I"]] true),
         NVal.child (Node.mk 4 [2, 3]
          [NVal.bucket ["II", "II"], NVal.bucket ["III", "III"]] true)] false) 3 =
      some (NVal.child (Node.mk 4 [2, 3]
        [NVal.bucket ["II", "II"], NVal.bucket ["III", "III"]] true), 1) from rfl),
      retrieveNode_leaf_eq]
    rfl

/-- C5: after any successful sequence of inserts on a tree with order ≥ 2,
no node reachable from the root holds more than `order` keys. -/
theorem claim5_bounded_node_size (order : Nat) (ops : List (K × V)) (t : BPlusTree K V)
    (h2 : 2 ≤ order) (hb : buildTree order ops = some t) :
    ∀ m : Node K V, Reach t.root m → m.keys.length ≤ order := by
  intro m hr
  exact (buildTree_reach_props h2 hb m hr).1

theorem claim5_witness :
    (Node.mk 2 [20, 30]
        [NVal.child (Node.mk 2 [10] [NVal.bucket [1]] true),
         NVal.child (Node.mk 2 [20] [NVal.bucket [2, 2]] true),
         NVal.child (Node.mk 2 [30] [NVal.bucket [3, 3]] true)] false :
      Node Nat Nat).keys.length ≤ 2 :=
  claim5_bounded_node_size 2 [(10, 1), (20, 2), (30, 3)] _ (by decide)
    eval_build_three _ (Reach.refl _)

/-- C6: after any successful sequence of inserts on a tree with order ≥ 2,
the keys of every node reachable from the root are strictly increasing. -/
theorem claim6_sorted_keys (order : Nat) (ops : List (K × V)) (t : BPlusTree K V)
    (h2 : 2 ≤ order) (hb : buildTree order ops = some t) :
    ∀ m : Node K V, Reach t.root m → List.Sorted (· < ·) m.keys := by
  intro m hr
  exact (buildTree_reach_props h2 hb m hr).2.2.2.1

theorem claim6_witness :
    List.Sorted (· < ·) (Node.mk 2 [20, 30]
        [NVal.child (Node.mk 2 [10] [NVal.bucket [1]] true),
         NVal.child (Node.mk 2 [20] [NVal.bucket [2, 2]] true),
         NVal.child (Node.mk 2 [30] [NVal.bucket [3, 3]] true)] false :
      Node Nat Nat).keys :=
  claim6_sorted_keys 2 [(10, 1), (20, 2), (30, 3)] _ (by decide)
    eval_build_three _ (Reach.refl _)

/-- C7: after any successful sequence of inserts on a tree with order ≥ 2,
every reachable leaf has exactly as many value buckets as keys, and every
reachable internal node has exactly one more child slot than keys. -/
theorem claim7_fanout (order : Nat) (ops : List (K × V)) (t : BPlusTree K V)
    (h2 : 2 ≤ order) (hb : buildTree order ops = some t) :
    ∀ m : Node K V, Reach t.root m →
      (m.is_leaf = true → m.values.length = m.keys.length) ∧
      (m.is_leaf = false → m.values.length = m.keys.length + 1) := by
  intro m hr
  obtain ⟨_, hleaf, hint, _, _⟩ := buildTree_reach_props h2 hb m hr
  exact ⟨fun hlf => (hleaf hlf).1, fun hlf => (hint hlf).1⟩

theorem claim7_witness :
    ((Node.mk 2 [20, 30]
        [NVal.child (Node.mk 2 [10] [NVal.bucket [1]] true),
         NVal.child (Node.mk 2 [20] [NVal.bucket [2, 2]] true),
         NVal.child (Node.mk 2 [30] [NVal.bucket [3, 3]] true)] false :
      Node Nat Nat).is_leaf = true →
      (Node.mk 2 [20, 30]
        [NVal.child (Node.mk 2 [10] [NVal.bucket [1]] true),
         NVal.child (Node.mk 2 [20] [NVal.bucket [2, 2]] true),
         NVal.child (Node.mk 2 [30] [NVal.bucket [3, 3]] true)] false :
      Node Nat Nat).values.length = (Node.mk 2 [20, 30]
        [NVal.child (Node.mk 2 [10] [NVal.bucket [1]] true),
         NVal.child (Node.mk 2 [20] [NVal.bucket [2, 2]] true),
         NVal.child (Node.mk 2 [30] [NVal.bucket [3, 3]] true)] false :
      Node Nat Nat).keys.length) ∧
    ((Node.mk 2 [20, 30]
        [NVal.child (Node.mk 2 [10] [NVal.bucket [1]] true),
         NVal.child (Node.mk 2 [20] [NVal.bucket [2, 2]] true),
         NVal.child (Node.mk 2 [30] [NVal.bucket [3, 3]] true)] false :
      Node Nat Nat).is_leaf = false →
      (Node.mk 2 [20, 30]
        [NVal.child (Node.mk 2 [10] [NVal.bucket [1]] true),
         NVal.child (Node.mk 2 [20] [NVal.bucket [2, 2]] true),
         NVal.child (Node.mk 2 [30] [NVal.bucket [3, 3]] true)] false :
      Node Nat Nat).values.length = (Node.mk 2 [20, 30]
        [NVal.child (Node.mk 2 [10] [NVal.bucket [1]] true),
         NVal.child (Node.mk 2 [20] [NVal.bucket [2, 2]] true),
         NVal.child (Node.mk 2 [30] [NVal.bucket [3, 3]] true)] false :
      Node Nat Nat).keys.length + 1) :=
  claim7_fanout 2 [(10, 1), (20, 2), (30, 3)] _ (by decide)
    eval_build_three _ (Reach.refl _)

/-- C8: fetching a key that was never inserted returns the not-found signal
(`None`), on any tree with order ≥ 2 built by a successful sequence of
inserts. -/
theorem claim8_absent_key (order : Nat) (ops : List (K × V)) (t : BPlusTree K V)
    (key : K) (h2 : 2 ≤ order) (hb : buildTree order ops = some t)
    (hk : ∀ p ∈ ops, p.1 ≠ key) : t.retrieve key = some none := by
  have hw := buildTree_wf h2 hb
  obtain ⟨r, hr⟩ := @retrieveNode_total _ _ _ order key (sizeOf t.root)
    t.root none none (le_refl _) hw
  cases r with
  | none => rw [BPlusTree.retrieve, hr]
  | some v =>
    exfalso
    have hkt := retrieveNode_found (sizeOf t.root) t.root (le_refl _) hr
    have hsub := build_keys_sub ops (BPlusTree.new order) t
      (by rwa [buildTree] at hb) key hkt
    rcases hsub with hx | hx
    · simp [BPlusTree.new, allKeys_mk, allKeysVals] at hx
    · obtain ⟨p, hp, hpe⟩ := List.mem_map.mp hx
      exact hk p hp hpe

theorem claim8_witness :
    (⟨Node.mk 2 [20]
      [NVal.child (Node.mk 2 [10] [NVal.bucket [1]] true),
       NVal.child (Node.mk 2 [20] [NVal.bucket [2, 2]] true)] false⟩ :
      BPlusTree Nat Nat).retrieve 5 = some none :=
  claim8_absent_key 2 [(10, 1), (20, 2)] _ 5 (by decide) eval_build_split
    (by decide)

/-- C9: through the public insert path an internal node is never split: any
node that is internal when `insert` reaches it stays internal, and if it is
full (key count equal to its order) its key list is left completely
unchanged by the insert — merges into it are skipped, so it stays full. -/
theorem claim9_internal_never_split {n n' : Node K V} {key : K} {value : V}
    (h : insertNode n key value = some n') (hl : n.is_leaf = false) :
    n'.is_leaf = false ∧ (n.keys.length = n.order → n'.keys = n.keys) := by
  cases n with
  | mk o ks vs lf =>
    have hlf : lf = false := by simpa using hl
    subst hlf
    cases hf : _find (Node.mk o ks vs false) key with
    | none => rw [insertNode_internal_none hf] at h; cases h
    | some p =>
      obtain ⟨v, index⟩ := p
      cases v with
      | bucket b => rw [insertNode_internal_bucket hf] at h; cases h
      | child c =>
        rw [insertNode_internal_child hf] at h
        cases c with
        | mk co cks cvs clf =>
          by_cases hcl : (Node.mk co cks cvs clf).is_leaf = true
          · rw [if_pos hcl] at h
            cases hadd : Node.add (Node.mk co cks cvs clf) key value with
            | none => rw [hadd] at h; cases h
            | some c2 =>
              simp only [hadd] at h
              by_cases hc2f : c2.is_full = true
              · rw [if_pos hc2f] at h
                cases hsplit : c2.split with
                | none => rw [hsplit] at h; cases h
                | some c3 =>
                  simp only [hsplit] at h
                  by_cases hpf : (Node.mk o ks vs false).is_full = true
                  · rw [if_pos hpf] at h
                    cases h
                    exact ⟨rfl, fun _ => rfl⟩
                  · rw [if_neg hpf] at h
                    refine ⟨merge_is_leaf h, ?_⟩
                    intro hfull
                    exfalso
                    have hko : ks.length = o := by simpa using hfull
                    exact hpf (by simp [Node.is_full, hko])
              · rw [if_neg hc2f] at h
                cases h
                exact ⟨rfl, fun _ => rfl⟩
          · rw [if_neg hcl] at h
            cases hrec : insertNode (Node.mk co cks cvs clf) key value with
            | none => rw [hrec] at h; cases h
            | some c2 =>
              simp only [hrec] at h
              cases h
              exact ⟨rfl, fun _ => rfl⟩

theorem claim9_witness :
    (Node.mk 2 [10, 20]
      [NVal.child (Node.mk 2 [5] [NVal.bucket [50]] true),
       NVal.child (Node.mk 2 [15] [NVal.bucket [150]] true),
       NVal.child (Node.mk 2 [30]
         [NVal.child (Node.mk 2 [25] [NVal.bucket [250]] true),
          NVal.child (Node.mk 2 [30] [NVal.bucket [300, 300]] true)] false)] false :
      Node Nat Nat).is_leaf = false ∧
    ((Node.mk 2 [10, 20]
      [NVal.child (Node.mk 2 [5] [NVal.bucket [50]] true),
       NVal.child (Node.mk 2 [15] [NVal.bucket [150]] true),
       NVal.child (Node.mk 2 [25] [NVal.bucket [250]] true)] false :
      Node Nat Nat).keys.length = (Node.mk 2 [10, 20]
      [NVal.child (Node.mk 2 [5] [NVal.bucket [50]] true),
       NVal.child (Node.mk 2 [15] [NVal.bucket [150]] true),
       NVal.child (Node.mk 2 [25] [NVal.bucket [250]] true)] false :
      Node Nat Nat).order →
      (Node.mk 2 [10, 20]
        [NVal.child (Node.mk 2 [5] [NVal.bucket [50]] true),
         NVal.child (Node.mk 2 [15] [NVal.bucket [150]] true),
         NVal.child (Node.mk 2 [30]
           [NVal.child (Node.mk 2 [25] [NVal.bucket [250]] true),
            NVal.child (Node.mk 2 [30] [NVal.bucket [300, 300]] true)] false)] false :
        Node Nat Nat).keys = (Node.mk 2 [10, 20]
        [NVal.child (Node.mk 2 [5] [NVal.bucket [50]] true),
         NVal.child (Node.mk 2 [15] [NVal.bucket [150]] true),
         NVal.child (Node.mk 2 [25] [NVal.bucket [250]] true)] false :
        Node Nat Nat).keys) :=
  claim9_internal_never_split (show insertNode (Node.mk 2 [10, 20]
      [NVal.child (Node.mk 2 [5] [NVal.bucket [50]] true),
       NVal.child (Node.mk 2 [15] [NVal.bucket [150]] true),
       NVal.child (Node.mk 2 [25] [NVal.bucket [250]] true)] false) 30 300 =
    some (Node.mk 2 [10, 20]
      [NVal.child (Node.mk 2 [5] [NVal.bucket [50]] true),
       NVal.child (Node.mk 2 [15] [NVal.bucket [150]] true),
       NVal.child (Node.mk 2 [30]
         [NVal.child (Node.mk 2 [25] [NVal.bucket [250]] true),
          NVal.child (Node.mk 2 [30] [NVal.bucket [300, 300]] true)] false)] false) by
    rw [insertNode_internal_child (show _find (Node.mk 2 [10, 20]
        [NVal.child (Node.mk 2 [5] [NVal.bucket [50]] true),
         NVal.child (Node.mk 2 [15] [NVal.bucket [150]] true),
         NVal.child (Node.mk 2 [25] [NVal.bucket [250]] true)] false) 30 =
      some (NVal.child (Node.mk 2 [25] [NVal.bucket [250]] true), 2) from rfl)]
    rfl) rfl

/-- C10: on a tree with order ≥ 2, every sequence of inserts succeeds (no
index or attribute error is ever raised: the embedding never returns the
error value `none`), and retrieval on the resulting tree always succeeds as
well. -/
theorem claim10_no_runtime_errors (order : Nat) (ops : List (K × V))
    (h2 : 2 ≤ order) :
    (buildTree (K := K) (V := V) order ops).isSome = true ∧
    ∀ (t : BPlusTree K V) (key : K), buildTree order ops = some t →
      (t.retrieve key).isSome = true := by
  obtain ⟨t, ht, hw⟩ := buildTree_total h2 ops
  constructor
  · rw [ht]
    rfl
  · intro t' key hb
    rw [ht, Option.some_inj] at hb
    subst hb
    obtain ⟨r, hr⟩ := @retrieveNode_total _ _ _ order key
      (sizeOf t.root) t.root none none (le_refl _) hw
    rw [BPlusTree.retrieve, hr]
    rfl

theorem claim10_witness :
    (buildTree 2 [(10, 1)] : Option (BPlusTree Nat Nat)).isSome = true ∧
    ((⟨Node.mk 2 [10] [NVal.bucket [1]] true⟩ : BPlusTree Nat Nat).retrieve 5).isSome =
      true :=
  ⟨(claim10_no_runtime_errors 2 [(10, 1)] (by decide)).1,
   (claim10_no_runtime_errors 2 [(10, 1)] (by decide)).2 _ 5 eval_build_one⟩

end BPT
